import Mathlib

/-!
Verification development for the morse-player core (`src/morse_player.rs`).

The encoder `gen_audio_prev_vec`, the timing calculator `get_time_and_timings`,
the unit-duration helper `get_speed_from_text_type` and the action-length table
(including `set_delay`) are shallowly embedded below.  Rust `f32`/`f64` values
are modelled as exact rationals (ℚ), `i32`/`u64` as ℤ/ℕ with the cast
truncations made explicit, and every operation that can panic in Rust
(out-of-bounds indexing, `unwrap` of a missing table entry) is modelled by an
`Option`-returning function, `none` standing for the panic.

Symbols are the characters the Rust code itself uses in its preview vectors:
`.` (Dot), `-` (Dash), `*` (IntraGap), `$` (CharacterGap), `/` (WordGap) and
`|` (SpeedMarker).
-/

/-- Mirrors `enum TextType` from the source. -/
inductive TextType where
  | Letters
  | Digits
  | Mixed
deriving DecidableEq

/-- Mirrors `enum SpeedModificationType` from the source. -/
inductive SpeedModificationType where
  | None
  | Speedup
  | Slowing
  | Zigzag
deriving DecidableEq

/-- Constant `LETTERS_DURATION: f32 = 0.05` as an exact rational. -/
def LETTERS_DURATION : ℚ := 5 / 100

/-- Constant `DIGITS_DURATION: f32 = 0.034` as an exact rational. -/
def DIGITS_DURATION : ℚ := 34 / 1000

/-- Constant `MIXED_DURATION: f32 = 0.042` as an exact rational. -/
def MIXED_DURATION : ℚ := 42 / 1000

/-- Mirrors `get_speed_from_text_type`: the per-unit duration in seconds for a
given text type and percentage speed (`base * 100.0 / speed`). -/
def get_speed_from_text_type (tt : TextType) (speed : ℚ) : ℚ :=
  match tt with
  | TextType.Letters => LETTERS_DURATION * 100 / speed
  | TextType.Digits => DIGITS_DURATION * 100 / speed
  | TextType.Mixed => MIXED_DURATION * 100 / speed

/-- The Morse table built in `gen_audio_prev_vec`, as an association list in
source order; each code string is spelled as its list of tone characters. -/
def morse : List (Char × List Char) :=
  [('A', ['.', '-']), ('B', ['-', '.', '.', '.']), ('C', ['-', '.', '-', '.']),
   ('D', ['-', '.', '.']), ('E', ['.']),
   ('F', ['.', '.', '-', '.']), ('G', ['-', '-', '.']), ('H', ['.', '.', '.', '.']),
   ('I', ['.', '.']), ('J', ['.', '-', '-', '-']),
   ('K', ['-', '.', '-']), ('L', ['.', '-', '.', '.']), ('M', ['-', '-']),
   ('N', ['-', '.']), ('O', ['-', '-', '-']),
   ('P', ['.', '-', '-', '.']), ('Q', ['-', '-', '.', '-']), ('R', ['.', '-', '.']),
   ('S', ['.', '.', '.']), ('T', ['-']),
   ('U', ['.', '.', '-']), ('V', ['.', '.', '.', '-']), ('W', ['.', '-', '-']),
   ('X', ['-', '.', '.', '-']), ('Y', ['-', '.', '-', '-']),
   ('Z', ['-', '-', '.', '.']), ('0', ['-', '-', '-', '-', '-']),
   ('1', ['.', '-', '-', '-', '-']), ('2', ['.', '.', '-', '-', '-']),
   ('3', ['.', '.', '.', '-', '-']),
   ('4', ['.', '.', '.', '.', '-']), ('5', ['.', '.', '.', '.', '.']),
   ('6', ['-', '.', '.', '.', '.']), ('7', ['-', '-', '.', '.', '.']),
   ('8', ['-', '-', '-', '.', '.']),
   ('9', ['-', '-', '-', '-', '.']), ('.', ['.', '-', '.', '-', '.', '-']),
   (',', ['-', '-', '.', '.', '-', '-']), ('/', ['-', '.', '.', '-', '.']),
   ('?', ['.', '.', '-', '-', '.', '.']),
   ('=', ['-', '.', '.', '.', '-'])]

/-- Lookup in the Morse table (`morse.get(&element)` on the Rust `HashMap`). -/
def morse_get (c : Char) : Option (List Char) :=
  (morse.find? (fun p => p.1 == c)).map (fun p => p.2)

/-- The default `actions_length` map built in `AudioPlayer::new`:
symbol ↦ (category, duration-in-units). -/
def default_actions_length (c : Char) : Option (ℤ × ℤ) :=
  match c with
  | '.' => some (0, 1)
  | '-' => some (0, 3)
  | '*' => some (1, 1)
  | '$' => some (1, 3)
  | '/' => some (1, 7)
  | '|' => some (2, 0)
  | _ => Option.none

/-- Truncation toward zero of a rational, matching a Rust `as i32` cast of a
finite float value. -/
def ratTrunc (q : ℚ) : ℤ :=
  if 0 ≤ q then ⌊q⌋ else -⌊-q⌋

/-- Rust `as i32` on a finite float value: truncation toward zero, saturating
at the i32 bounds. -/
def ratToI32 (q : ℚ) : ℤ :=
  max (-2147483648) (min 2147483647 (ratTrunc q))

/-- Mirrors `AudioPlayer::set_delay`: overwrites the `$` entry with the given
delay and the `/` entry with `(delay as f64 * 2.33) as i32`.  For every `i32`
delay the `f64` product truncates and saturates to the same i32 as the exact
rational product `delay * 233/100` (the f64 error stays below 1/100, the
minimal distance of the exact product from an integer it does not equal), so
the cast is modelled by exact truncation with saturation. -/
def set_delay (delay : ℤ) (c : Char) : Option (ℤ × ℤ) :=
  match c with
  | '$' => some (1, delay)
  | '/' => some (1, ratToI32 ((delay : ℚ) * (233 / 100)))
  | c => default_actions_length c

/-- Encoder state: the speed pattern, the audio preview vector and the cyclic
character counter `char_now` (an `i32` in the source). -/
abbrev EncSt := List ℚ × List Char × ℤ

/-- The ramp value computed for the current counter in `gen_audio_prev_vec`
(`N` is the already-multiplied `modification_len * 5`).  The `None` arm is
unreachable in the source (guarded by `modification ≠ None`; Rust panics). -/
def speedOnChar (mod : SpeedModificationType) (minS maxS : ℚ) (N cn : ℤ) : ℚ :=
  match mod with
  | SpeedModificationType.Speedup =>
      (maxS - minS) / ((N - 1 : ℤ) : ℚ) * (cn : ℚ) + minS
  | SpeedModificationType.Slowing =>
      maxS - ((maxS - minS) / ((N - 1 : ℤ) : ℚ) * (cn : ℚ))
  | SpeedModificationType.Zigzag =>
      if cn < Int.tdiv N 2 then
        (maxS - minS) / ((Int.tdiv N 2 - 1 : ℤ) : ℚ) * (cn : ℚ) + minS
      else
        maxS - ((maxS - minS) / ((Int.tdiv N 2 - 1 : ℤ) : ℚ) * ((cn - Int.tdiv N 2 : ℤ) : ℚ))
  | SpeedModificationType.None => 0

/-- The counter update `char_now += 1; if char_now == modification_len { 0 }`. -/
def wrapCn (N cn : ℤ) : ℤ :=
  if cn + 1 = N then 0 else cn + 1

/-- First phase of one loop iteration of `gen_audio_prev_vec`: for a non-space
character under an active modification, push the ramp value, advance the
counter and push the `|` speed marker. -/
def markPart (minS maxS : ℚ) (mod : SpeedModificationType) (N : ℤ) (c : Char)
    (st : EncSt) : EncSt :=
  match st with
  | (pat, vec, cn) =>
    if c ≠ ' ' ∧ mod ≠ SpeedModificationType.None then
      (pat ++ [speedOnChar mod minS maxS N cn], vec ++ ['|'], wrapCn N cn)
    else (pat, vec, cn)

/-- Second phase: if the character is in the Morse table, push its tones with
`*` between consecutive tones (none at the ends). -/
def morsePart (c : Char) (st : EncSt) : EncSt :=
  match st with
  | (pat, vec, cn) =>
    match morse_get c with
    | some code => (pat, vec ++ List.intersperse '*' code, cn)
    | Option.none => (pat, vec, cn)

/-- Third phase: push `$` after a non-space, non-last character; on a space,
rewrite the most recently pushed element (Rust `audio_vec[len - 1] = _`, a
panic — here `none` — when the vector is empty): to `|` followed by a pushed
`/` when the counter has just wrapped under an active modification (also
pushing an extra `min_speed` profile value), otherwise to `/`. -/
def gapPart (minS : ℚ) (mod : SpeedModificationType) (c : Char) (isLast : Bool)
    (st : EncSt) : Option EncSt :=
  match st with
  | (pat, vec, cn) =>
    if c ≠ ' ' ∧ isLast = false then some (pat, vec ++ ['$'], cn)
    else if c = ' ' then
      if vec = [] then Option.none
      else if cn = 0 ∧ mod ≠ SpeedModificationType.None then
        some (pat ++ [minS], vec.dropLast ++ ['|', '/'], cn)
      else
        some (pat, vec.dropLast ++ ['/'], cn)
    else some (pat, vec, cn)

/-- One full loop iteration of `gen_audio_prev_vec` for one character. -/
def encStep (minS maxS : ℚ) (mod : SpeedModificationType) (N : ℤ) (c : Char)
    (isLast : Bool) (st : EncSt) : Option EncSt :=
  gapPart minS mod c isLast (morsePart c (markPart minS maxS mod N c st))

/-- The encoder loop over the input characters; `isLast` for a character is
`i == text.len() - 1`, i.e. the emptiness of the remaining list. -/
def encGo (minS maxS : ℚ) (mod : SpeedModificationType) (N : ℤ) :
    List Char → EncSt → Option EncSt
  | [], st => some st
  | c :: rest, st =>
    match encStep minS maxS mod N c rest.isEmpty st with
    | Option.none => Option.none
    | some st₂ => encGo minS maxS mod N rest st₂

/-- Mirrors `gen_audio_prev_vec`: returns the speed pattern and the audio
preview vector (`none` models the panic on `audio_vec[len - 1]` with an empty
vector).  The `modification_len * 5` multiply is idealized to unbounded ℤ
here; `gen_audio_prev_vec_i32` below performs it in wrapping i32 arithmetic,
and `gen_audio_prev_vec_i32_eq` proves the two agree on every window length
whose product does not overflow an i32. -/
def gen_audio_prev_vec (text : List Char) (minS maxS : ℚ)
    (mod : SpeedModificationType) (modificationLen : ℤ) :
    Option (List ℚ × List Char) :=
  match encGo minS maxS mod (modificationLen * 5) text ([], [], 0) with
  | Option.none => Option.none
  | some (pat, vec, _) => some (pat, vec)

/-- Two's-complement wrapping of an integer into the i32 range: the
release-mode semantics of an overflowing i32 multiply (debug builds panic
instead). -/
def i32_wrap (x : ℤ) : ℤ :=
  (x + 2147483648) % 4294967296 - 2147483648

/-- Mirrors `gen_audio_prev_vec` with the `modification_len * 5` multiply
performed in wrapping i32 arithmetic, faithful to the source's i32 type. -/
def gen_audio_prev_vec_i32 (text : List Char) (minS maxS : ℚ)
    (mod : SpeedModificationType) (modificationLen : ℤ) :
    Option (List ℚ × List Char) :=
  match encGo minS maxS mod (i32_wrap (modificationLen * 5)) text ([], [], 0) with
  | Option.none => Option.none
  | some (pat, vec, _) => some (pat, vec)

/-- Millisecond conversion `(duration * 1000.0) as u64` of a duration value:
truncation, saturating at zero from below. -/
def ratToMillis (q : ℚ) : ℕ :=
  (⌊q * 1000⌋).toNat

/-- The loop of `get_time_and_timings`, walking the preview vector with the
accumulated duration, the current per-unit duration, the speed-pattern cursor
and the checkpoint list; `none` models the panics (missing table entry,
`speed_pattern.unwrap()` of `None`, out-of-bounds pattern index). -/
def timingGo (tt : TextType) (speedPat : Option (List ℚ))
    (tbl : Char → Option (ℤ × ℤ)) :
    List Char → ℚ → ℚ → ℕ → List ℕ → Option (ℚ × List ℕ)
  | [], dur, _, _, cps => some (dur, cps)
  | e :: rest, dur, stu, cn, cps =>
    match tbl e with
    | Option.none => Option.none
    | some (act, mult) =>
      let dur₂ := dur + stu * (mult : ℚ)
      let next : Option (ℚ × ℕ) :=
        if act = 2 then
          match speedPat with
          | Option.none => Option.none
          | some pat =>
            match pat[cn]? with
            | Option.none => Option.none
            | some v => some (get_speed_from_text_type tt v, cn + 1)
        else some (stu, cn)
      match next with
      | Option.none => Option.none
      | some (stu₂, cn₂) =>
        let cps₂ := if e = '$' ∨ e = '/' then cps ++ [ratToMillis dur₂] else cps
        timingGo tt speedPat tbl rest dur₂ stu₂ cn₂ cps₂

/-- Mirrors `get_time_and_timings`: total duration and checkpoint list (in
milliseconds), starting from duration 0 and the initial `0` checkpoint. -/
def get_time_and_timings (vec : List Char) (tt : TextType) (speed : ℚ)
    (speedPat : Option (List ℚ)) (tbl : Char → Option (ℤ × ℤ)) :
    Option (ℚ × List ℕ) :=
  timingGo tt speedPat tbl vec 0 (get_speed_from_text_type tt speed) 0 [0]

/-- Spec-side walker (written from the spec sentence in §4.5): the list of
per-symbol durations `unitSeconds × durationUnits(symbol)`, recomputing
`unitSeconds` from the next unconsumed speed-profile entry at each
speed-change symbol (table category 2). -/
def specSymbolDurations (tt : TextType) (speedPat : Option (List ℚ))
    (tbl : Char → Option (ℤ × ℤ)) :
    List Char → ℚ → ℕ → Option (List ℚ)
  | [], _, _ => some []
  | e :: rest, stu, cn =>
    match tbl e with
    | Option.none => Option.none
    | some (act, mult) =>
      let d := stu * (mult : ℚ)
      if act = 2 then
        match speedPat with
        | Option.none => Option.none
        | some pat =>
          match pat[cn]? with
          | Option.none => Option.none
          | some v =>
            match specSymbolDurations tt speedPat tbl rest
                (get_speed_from_text_type tt v) (cn + 1) with
            | Option.none => Option.none
            | some ds => some (d :: ds)
      else
        match specSymbolDurations tt speedPat tbl rest stu cn with
        | Option.none => Option.none
        | some ds => some (d :: ds)

/-- Decoder state: completed words, the characters of the current word, and
the tones of the current group. -/
abbrev DecSt := List (List Char) × List Char × List Char

/-- Reverse lookup for the decoder (written from claim C4: look each Dot/Dash
group up in the Morse table). -/
def decodeLookup (g : List Char) : Option Char :=
  (morse.find? (fun p => p.2 == g)).map (fun p => p.1)

/-- One decoding step (written from claim C4): tones accumulate in the current
group, `$` closes a character, `/` closes a word, `*` and `|` are ignored. -/
def decodeStep (s : Char) (st : DecSt) : Option DecSt :=
  match st with
  | (ws, wacc, gacc) =>
    if s = '.' ∨ s = '-' then some (ws, wacc, gacc ++ [s])
    else if s = '$' then
      match decodeLookup gacc with
      | Option.none => Option.none
      | some c => some (ws, wacc ++ [c], [])
    else if s = '/' then
      match decodeLookup gacc with
      | Option.none => Option.none
      | some c => some (ws ++ [wacc ++ [c]], [], [])
    else some (ws, wacc, gacc)

/-- The decoding walk over a symbol vector. -/
def decodeGo : List Char → DecSt → Option DecSt
  | [], st => some st
  | s :: rest, st =>
    match decodeStep s st with
    | Option.none => Option.none
    | some st₂ => decodeGo rest st₂

/-- Full decoding (written from claim C4): walk the vector, then close the
final pending group as the last character of the last word. -/
def decode (vec : List Char) : Option (List (List Char)) :=
  match decodeGo vec ([], [], []) with
  | Option.none => Option.none
  | some (ws, wacc, gacc) =>
    match decodeLookup gacc with
    | Option.none => Option.none
    | some c => some (ws ++ [wacc ++ [c]])

/-- Words joined by single spaces, no leading or trailing space (the text
shape named by claim C4). -/
def joinWords : List (List Char) → List Char
  | [] => []
  | [w] => w
  | w :: ws => w ++ ' ' :: joinWords ws

/-- The most negative finite f32 value (the fold seed `f32::MIN`), exactly:
−(2 − 2^−23)·2^127. -/
noncomputable def F32_MIN : ℝ :=
  -(2 ^ 128 - 2 ^ 104)

/-- ndarray `Array1::linspace a b n`: n evenly spaced points from a to b
inclusive (a alone when n = 1, empty when n = 0). -/
noncomputable def linspace (a b : ℝ) (n : ℕ) : List ℝ :=
  if n ≤ 1 then (List.range n).map (fun _ => a)
  else (List.range n).map (fun (i : ℕ) => a + (b - a) * (i : ℝ) / ((n : ℝ) - 1))

/-- The Sine arm of `get_wave` before normalization: the sample count
`(SAMPLE_RATE as f32 * speed_to_use * duration_multiplier) as usize`, the
time grid `linspace(0, speed_to_use * duration_multiplier, count)`, and
`sin(2π · frequency · t)` per sample (f32 idealized to exact reals, matching
this file's exact-value convention). -/
noncomputable def sine_wave_samples (frequency : ℤ) (speed_to_use : ℝ)
    (duration_multiplier : ℤ) : List ℝ :=
  (linspace 0 (speed_to_use * (duration_multiplier : ℝ))
      ((⌊(48000 : ℝ) * speed_to_use * (duration_multiplier : ℝ)⌋).toNat)).map
    (fun t => Real.sin (2 * Real.pi * (frequency : ℝ) * t))

/-- The normalization step of `get_wave`: compute
`wave.iter().cloned().fold(f32::MIN, f32::max).abs()` — the absolute value of
the buffer's maximum sample, not the maximum absolute sample — and divide
every sample by it when it is positive. -/
noncomputable def normalize_wave (wave : List ℝ) : List ℝ :=
  if 0 < abs (wave.foldl max F32_MIN) then
    wave.map (fun s => s / abs (wave.foldl max F32_MIN))
  else wave

/-- The rising Hann factors of `apply_hann_window`: `0.5 * (1 - cos θ)` over
`linspace(0, π, fade_in_samples)`. -/
noncomputable def hann_in_factors (n : ℕ) : List ℝ :=
  (linspace 0 Real.pi n).map (fun x => 0.5 * (1 - Real.cos x))

/-! ## Helper lemmas about the tables -/

/-- Every Morse table entry has a nonempty code made only of tones, and the
reverse lookup of its code recovers its character (the codes are distinct). -/
lemma morse_mem_facts :
    ∀ p ∈ morse, p.2 ≠ [] ∧ (∀ t ∈ p.2, t = '.' ∨ t = '-') ∧
      decodeLookup p.2 = some p.1 := by
  decide

/-- A successful Morse lookup comes from a table entry. -/
lemma morse_get_mem {c : Char} {code : List Char} (h : morse_get c = some code) :
    (c, code) ∈ morse := by
  unfold morse_get at h
  cases hf : morse.find? (fun p => p.1 == c) with
  | none => rw [hf] at h; simp at h
  | some p =>
    rw [hf] at h
    have hm := List.mem_of_find?_eq_some hf
    have hp := List.find?_some hf
    have hp2 : p.1 = c := by simpa using hp
    have h2 : p.2 = code := by simpa using h
    have hpe : p = (c, code) := by
      cases p
      simp_all
    rwa [hpe] at hm

/-- The space character is not in the Morse table. -/
lemma morse_get_space : morse_get ' ' = Option.none := by decide

/-! ## Unfolding lemmas for one encoder step -/

/-- Unfolding of `markPart` on an explicit state triple. -/
lemma markPart_eq (minS maxS : ℚ) (mod : SpeedModificationType) (N : ℤ)
    (c : Char) (pat : List ℚ) (vec : List Char) (cn : ℤ) :
    markPart minS maxS mod N c (pat, vec, cn) =
      if c ≠ ' ' ∧ mod ≠ SpeedModificationType.None then
        (pat ++ [speedOnChar mod minS maxS N cn], vec ++ ['|'], wrapCn N cn)
      else (pat, vec, cn) := rfl

/-- Unfolding of `morsePart` on an explicit state triple. -/
lemma morsePart_eq (c : Char) (pat : List ℚ) (vec : List Char) (cn : ℤ) :
    morsePart c (pat, vec, cn) =
      match morse_get c with
      | some code => (pat, vec ++ List.intersperse '*' code, cn)
      | Option.none => (pat, vec, cn) := rfl

/-- Unfolding of `gapPart` on an explicit state triple. -/
lemma gapPart_eq (minS : ℚ) (mod : SpeedModificationType) (c : Char)
    (isLast : Bool) (pat : List ℚ) (vec : List Char) (cn : ℤ) :
    gapPart minS mod c isLast (pat, vec, cn) =
      if c ≠ ' ' ∧ isLast = false then some (pat, vec ++ ['$'], cn)
      else if c = ' ' then
        if vec = [] then Option.none
        else if cn = 0 ∧ mod ≠ SpeedModificationType.None then
          some (pat ++ [minS], vec.dropLast ++ ['|', '/'], cn)
        else
          some (pat, vec.dropLast ++ ['/'], cn)
      else some (pat, vec, cn) := rfl

/-- Unfolding of the encoder loop on a cons cell. -/
lemma encGo_cons (minS maxS : ℚ) (mod : SpeedModificationType) (N : ℤ)
    (c : Char) (rest : List Char) (st : EncSt) :
    encGo minS maxS mod N (c :: rest) st =
      match encStep minS maxS mod N c rest.isEmpty st with
      | Option.none => Option.none
      | some st₂ => encGo minS maxS mod N rest st₂ := rfl

/-! ## Shape lemmas for the encoder step -/

/-- The mark phase only appends to the preview vector. -/
lemma markPart_shape (minS maxS : ℚ) (mod : SpeedModificationType) (N : ℤ)
    (c : Char) (pat : List ℚ) (vec : List Char) (cn : ℤ) :
    ∃ pat₂ t cn₂,
      markPart minS maxS mod N c (pat, vec, cn) = (pat₂, vec ++ t, cn₂) := by
  rw [markPart_eq]
  by_cases h : c ≠ ' ' ∧ mod ≠ SpeedModificationType.None
  · rw [if_pos h]
    exact ⟨_, ['|'], _, rfl⟩
  · rw [if_neg h]
    exact ⟨pat, [], cn, by rw [List.append_nil]⟩

/-- The Morse phase only appends to the preview vector and keeps the rest. -/
lemma morsePart_shape (c : Char) (pat : List ℚ) (vec : List Char) (cn : ℤ) :
    ∃ t, morsePart c (pat, vec, cn) = (pat, vec ++ t, cn) := by
  rw [morsePart_eq]
  cases h : morse_get c with
  | none => exact ⟨[], by rw [List.append_nil]⟩
  | some code => exact ⟨_, rfl⟩

/-- The gap phase on a non-space character always succeeds. -/
lemma gapPart_nonspace_isSome (minS : ℚ) (mod : SpeedModificationType)
    {c : Char} (isLast : Bool) (pat : List ℚ) (vec : List Char) (cn : ℤ)
    (hc : c ≠ ' ') :
    (gapPart minS mod c isLast (pat, vec, cn)).isSome := by
  rw [gapPart_eq]
  by_cases h1 : c ≠ ' ' ∧ isLast = false
  · rw [if_pos h1]; rfl
  · rw [if_neg h1, if_neg hc]; rfl

/-- The gap phase on a non-space, non-last character pushes a `$`. -/
lemma gapPart_nonspace_notLast (minS : ℚ) (mod : SpeedModificationType)
    {c : Char} (pat : List ℚ) (vec : List Char) (cn : ℤ) (hc : c ≠ ' ') :
    gapPart minS mod c false (pat, vec, cn) = some (pat, vec ++ ['$'], cn) := by
  rw [gapPart_eq, if_pos ⟨hc, rfl⟩]

/-- The gap phase from a nonempty vector succeeds and keeps it nonempty. -/
lemma gapPart_ne_nil (minS : ℚ) (mod : SpeedModificationType) (c : Char)
    (isLast : Bool) (pat : List ℚ) (vec : List Char) (cn : ℤ) (h : vec ≠ []) :
    ∃ pat₂ vec₂ cn₂,
      gapPart minS mod c isLast (pat, vec, cn) = some (pat₂, vec₂, cn₂) ∧
        vec₂ ≠ [] := by
  rw [gapPart_eq]
  by_cases h1 : c ≠ ' ' ∧ isLast = false
  · rw [if_pos h1]
    exact ⟨_, _, _, rfl, by simp⟩
  · rw [if_neg h1]
    by_cases h2 : c = ' '
    · rw [if_pos h2, if_neg h]
      by_cases h3 : cn = 0 ∧ mod ≠ SpeedModificationType.None
      · rw [if_pos h3]
        exact ⟨_, _, _, rfl, by simp⟩
      · rw [if_neg h3]
        exact ⟨_, _, _, rfl, by simp⟩
    · rw [if_neg h2]
      exact ⟨_, _, _, rfl, h⟩

/-- A step on a non-space character always succeeds. -/
lemma encStep_nonspace_isSome (minS maxS : ℚ) (mod : SpeedModificationType)
    (N : ℤ) {c : Char} (isLast : Bool) (pat : List ℚ) (vec : List Char)
    (cn : ℤ) (hc : c ≠ ' ') :
    (encStep minS maxS mod N c isLast (pat, vec, cn)).isSome := by
  unfold encStep
  obtain ⟨pat₂, t, cn₂, hmk⟩ := markPart_shape minS maxS mod N c pat vec cn
  rw [hmk]
  obtain ⟨t₂, hmo⟩ := morsePart_shape c pat₂ (vec ++ t) cn₂
  rw [hmo]
  exact gapPart_nonspace_isSome minS mod isLast pat₂ (vec ++ t ++ t₂) cn₂ hc

/-- A step on a non-space, non-last character ends by pushing a `$`. -/
lemma encStep_nonspace_notLast (minS maxS : ℚ) (mod : SpeedModificationType)
    (N : ℤ) {c : Char} (pat : List ℚ) (vec : List Char) (cn : ℤ)
    (hc : c ≠ ' ') :
    ∃ pat₂ vec₂ cn₂,
      encStep minS maxS mod N c false (pat, vec, cn) =
        some (pat₂, vec₂ ++ ['$'], cn₂) := by
  unfold encStep
  obtain ⟨pat₂, t, cn₂, hmk⟩ := markPart_shape minS maxS mod N c pat vec cn
  rw [hmk]
  obtain ⟨t₂, hmo⟩ := morsePart_shape c pat₂ (vec ++ t) cn₂
  rw [hmo]
  exact ⟨pat₂, vec ++ t ++ t₂, cn₂,
    gapPart_nonspace_notLast minS mod pat₂ (vec ++ t ++ t₂) cn₂ hc⟩

/-- A step from a nonempty preview vector succeeds and keeps it nonempty. -/
lemma encStep_ne_nil (minS maxS : ℚ) (mod : SpeedModificationType) (N : ℤ)
    (c : Char) (isLast : Bool) (pat : List ℚ) (vec : List Char) (cn : ℤ)
    (h : vec ≠ []) :
    ∃ pat₂ vec₂ cn₂,
      encStep minS maxS mod N c isLast (pat, vec, cn) = some (pat₂, vec₂, cn₂) ∧
        vec₂ ≠ [] := by
  unfold encStep
  obtain ⟨pat₂, t, cn₂, hmk⟩ := markPart_shape minS maxS mod N c pat vec cn
  rw [hmk]
  obtain ⟨t₂, hmo⟩ := morsePart_shape c pat₂ (vec ++ t) cn₂
  rw [hmo]
  exact gapPart_ne_nil minS mod c isLast pat₂ (vec ++ t ++ t₂) cn₂ (by simp [h])

/-- The encoder loop succeeds from any nonempty preview vector. -/
lemma encGo_isSome_of_ne_nil (minS maxS : ℚ) (mod : SpeedModificationType)
    (N : ℤ) :
    ∀ (text : List Char) (pat : List ℚ) (vec : List Char) (cn : ℤ),
      vec ≠ [] → (encGo minS maxS mod N text (pat, vec, cn)).isSome := by
  intro text
  induction text with
  | nil => intro pat vec cn _; simp [encGo]
  | cons c rest ih =>
    intro pat vec cn h
    obtain ⟨pat₂, vec₂, cn₂, hstep, hne⟩ :=
      encStep_ne_nil minS maxS mod N c rest.isEmpty pat vec cn h
    rw [encGo_cons, hstep]
    exact ih pat₂ vec₂ cn₂ hne

/-- From the initial state, the encoder loop succeeds (for any window value)
whenever the text does not start with a space. -/
lemma encGo_init_isSome (minS maxS : ℚ) (mod : SpeedModificationType)
    (N : ℤ) (text : List Char) (h : text.head? ≠ some ' ') :
    (encGo minS maxS mod N text ([], [], 0)).isSome := by
  cases text with
  | nil => simp [encGo]
  | cons c rest =>
    have hc : c ≠ ' ' := by
      intro he
      exact h (by simp [he])
    cases rest with
    | nil =>
      have hst := encStep_nonspace_isSome minS maxS mod N true [] [] 0 hc
      cases hstep : encStep minS maxS mod N c true ([], [], 0) with
      | none => rw [hstep] at hst; simp at hst
      | some st₂ =>
        rw [encGo_cons]
        simp only [List.isEmpty_nil]
        rw [hstep]
        simp [encGo]
    | cons d rest₂ =>
      obtain ⟨pat₂, vec₂, cn₂, hstep⟩ :=
        encStep_nonspace_notLast minS maxS mod N ([] : List ℚ) [] 0 hc
      rw [encGo_cons]
      simp only [List.isEmpty_cons]
      rw [hstep]
      exact encGo_isSome_of_ne_nil minS maxS mod N (d :: rest₂)
        pat₂ (vec₂ ++ ['$']) cn₂ (by simp)

/-- Shared form of claims C10 and C6: if the text does not start with a space,
the encoder never indexes an empty vector, so it returns a result. -/
lemma gen_isSome_of_head_ne_space (text : List Char) (minS maxS : ℚ)
    (mod : SpeedModificationType) (wl : ℤ) (h : text.head? ≠ some ' ') :
    (gen_audio_prev_vec text minS maxS mod wl).isSome := by
  unfold gen_audio_prev_vec
  have hsome := encGo_init_isSome minS maxS mod (wl * 5) text h
  cases hres : encGo minS maxS mod (wl * 5) text ([], [], 0) with
  | none => rw [hres] at hsome; simp at hsome
  | some st₂ =>
    obtain ⟨a, b, d⟩ := st₂
    simp

/-- The same no-failure fact for the wrapping i32 entry point. -/
lemma gen_i32_isSome_of_head_ne_space (text : List Char) (minS maxS : ℚ)
    (mod : SpeedModificationType) (wl : ℤ) (h : text.head? ≠ some ' ') :
    (gen_audio_prev_vec_i32 text minS maxS mod wl).isSome := by
  unfold gen_audio_prev_vec_i32
  have hsome := encGo_init_isSome minS maxS mod (i32_wrap (wl * 5)) text h
  cases hres : encGo minS maxS mod (i32_wrap (wl * 5)) text ([], [], 0) with
  | none => rw [hres] at hsome; simp at hsome
  | some st₂ =>
    obtain ⟨a, b, d⟩ := st₂
    simp

/-! ## Claim C1 -/

/-- Claim C1: encoding the text "SOS" with textType = Letters, speed = 100,
modification = None yields exactly the symbol sequence
Dot, IntraGap, Dot, IntraGap, Dot, CharacterGap, Dash, IntraGap, Dash,
IntraGap, Dash, CharacterGap, Dot, IntraGap, Dot, IntraGap, Dot; the unit
duration is 0.05 × 100/100 = 0.05 s; and the total duration reported by the
timing calculator (27/20 s) equals the sum of unitSeconds × durationUnits over
that sequence using the default unit table. -/
theorem sos_end_to_end :
    gen_audio_prev_vec ['S', 'O', 'S'] 100 110 SpeedModificationType.None 10 =
      some ([],
        ['.', '*', '.', '*', '.', '$', '-', '*', '-', '*', '-', '$',
         '.', '*', '.', '*', '.']) ∧
    get_speed_from_text_type TextType.Letters 100 = (5 / 100 : ℚ) * 100 / 100 ∧
    get_speed_from_text_type TextType.Letters 100 = 1 / 20 ∧
    get_time_and_timings
        ['.', '*', '.', '*', '.', '$', '-', '*', '-', '*', '-', '$',
         '.', '*', '.', '*', '.']
        TextType.Letters 100 (some []) default_actions_length =
      some (27 / 20, [0, 400, 1100]) ∧
    (27 / 20 : ℚ) =
      (['.', '*', '.', '*', '.', '$', '-', '*', '-', '*', '-', '$',
        '.', '*', '.', '*', '.'].map
        (fun s => (1 / 20 : ℚ) *
          (((default_actions_length s).getD (0, 0)).2 : ℚ))).sum := by
  refine ⟨by decide, ?_, ?_, ?_, ?_⟩
  · norm_num [get_speed_from_text_type, LETTERS_DURATION]
  · norm_num [get_speed_from_text_type, LETTERS_DURATION]
  · norm_num +decide [get_time_and_timings, timingGo, ratToMillis,
      default_actions_length, get_speed_from_text_type, LETTERS_DURATION]
  · norm_num [default_actions_length]

/-! ## Claim C5 -/

/-- Claim C5 (counterexample): the claim says `set_delay d` sets the WordGap
units to round(d × 2.33); at d = 2 the code stores 4 (truncation of 4.66)
while round(4.66) = 5. -/
theorem set_delay_round_counterexample :
    set_delay 2 '/' = some (1, 4) ∧
    round ((2 : ℚ) * (233 / 100)) = 5 ∧ (4 : ℤ) ≠ 5 := by
  refine ⟨?_, ?_, by decide⟩
  · norm_num [set_delay, ratToI32, ratTrunc, min_def, max_def]
  · norm_num [round_eq]

/-- Claim C5 (amended): for every i32 delay value d, `set_delay d` sets the
CharacterGap duration-in-units to d and the WordGap duration-in-units to
d × 2.33 truncated toward zero and saturated to the i32 range (the `as i32`
cast of the f64 product), leaving the other table entries (Dot = 1, Dash = 3,
IntraGap = 1, SpeedMarker = 0) at their defaults. -/
theorem set_delay_spec (d : ℤ) (h1 : -2147483648 ≤ d)
    (h2 : d ≤ 2147483647) :
    set_delay d '$' = some (1, d) ∧
    set_delay d '/' = some (1, ratToI32 ((d : ℚ) * (233 / 100))) ∧
    set_delay d '.' = default_actions_length '.' ∧
    set_delay d '-' = default_actions_length '-' ∧
    set_delay d '*' = default_actions_length '*' ∧
    set_delay d '|' = default_actions_length '|' ∧
    default_actions_length '.' = some (0, 1) ∧
    default_actions_length '-' = some (0, 3) ∧
    default_actions_length '*' = some (1, 1) ∧
    default_actions_length '|' = some (2, 0) :=
  ⟨rfl, rfl, rfl, rfl, rfl, rfl, rfl, rfl, rfl, rfl⟩

/-- Witness for the amended claim C5 at d = 921666802, the smallest positive
delay whose product with 2.33 leaves the i32 range, where the cast saturates
to i32::MAX = 2147483647 while unbounded truncation would give
2147483648. -/
theorem set_delay_spec_witness :
    ((-2147483648 : ℤ) ≤ 921666802 ∧ (921666802 : ℤ) ≤ 2147483647) ∧
    (ratToI32 ((921666802 : ℚ) * (233 / 100)) = 2147483647 ∧
      ratTrunc ((921666802 : ℚ) * (233 / 100)) = 2147483648) ∧
    (set_delay 921666802 '$' = some (1, 921666802) ∧
      set_delay 921666802 '/' =
        some (1, ratToI32 ((921666802 : ℚ) * (233 / 100))) ∧
      set_delay 921666802 '.' = default_actions_length '.' ∧
      set_delay 921666802 '-' = default_actions_length '-' ∧
      set_delay 921666802 '*' = default_actions_length '*' ∧
      set_delay 921666802 '|' = default_actions_length '|' ∧
      default_actions_length '.' = some (0, 1) ∧
      default_actions_length '-' = some (0, 3) ∧
      default_actions_length '*' = some (1, 1) ∧
      default_actions_length '|' = some (2, 0)) :=
  ⟨⟨by norm_num, by norm_num⟩,
    ⟨by norm_num [ratToI32, ratTrunc, min_def, max_def],
      by norm_num [ratTrunc]⟩,
    set_delay_spec 921666802 (by norm_num) (by norm_num)⟩

/-! ## Claim C6 -/

/-- On window lengths whose product with 5 stays in the i32 range, the
wrapping and the idealized encoder entry points agree. -/
lemma gen_audio_prev_vec_i32_eq (text : List Char) (minS maxS : ℚ)
    (mod : SpeedModificationType) (wl : ℤ)
    (h1 : -2147483648 ≤ wl * 5) (h2 : wl * 5 ≤ 2147483647) :
    gen_audio_prev_vec_i32 text minS maxS mod wl =
      gen_audio_prev_vec text minS maxS mod wl := by
  have hwrap : i32_wrap (wl * 5) = wl * 5 := by
    unfold i32_wrap
    omega
  unfold gen_audio_prev_vec_i32 gen_audio_prev_vec
  rw [hwrap]

/-- Claim C6 (counterexample): encoding does not fail fast on a degenerate
window.  At windowLen = 0 (windowLen × 5 = 0 < 2, Speedup) it returns an
ordinary result; and at windowLen = −858993459 (also satisfying
windowLen × 5 < 2) the i32 product wraps to exactly 1, making the ramp
denominator 0 — so the zero denominator is reachable (NaN speed in the f32
program) — and encoding still returns a result instead of surfacing a
configuration error. -/
theorem degenerate_window_counterexample :
    ((0 : ℤ) * 5 < 2 ∧
      gen_audio_prev_vec_i32 ['A'] 100 110 SpeedModificationType.Speedup 0 =
        some ([100], ['|', '.', '*', '-'])) ∧
    ((-858993459 : ℤ) * 5 < 2 ∧
      i32_wrap ((-858993459 : ℤ) * 5) = 1 ∧
      i32_wrap ((-858993459 : ℤ) * 5) - 1 = 0 ∧
      (gen_audio_prev_vec_i32 ['A'] 100 110 SpeedModificationType.Speedup
        (-858993459)).isSome) := by
  refine ⟨⟨by norm_num, ?_⟩, by norm_num, by norm_num [i32_wrap],
    by norm_num [i32_wrap], ?_⟩
  · norm_num +decide [gen_audio_prev_vec_i32, i32_wrap, encGo, encStep,
      gapPart, morsePart, markPart, morse_get, morse, wrapCn, speedOnChar,
      List.find?]
  · norm_num +decide [gen_audio_prev_vec_i32, i32_wrap, encGo, encStep,
      gapPart, morsePart, markPart, morse_get, morse, wrapCn, speedOnChar,
      List.find?]

/-- Claim C6 (amended): for every configuration with windowLen × 5 < 2 and
any modification type, encoding performs no validation and does not fail
fast: for every text not starting with a space it returns an ordinary result
(wrapping i32 model).  Whenever the i32 product windowLen × 5 does not
overflow, the ramp denominator windowLen × 5 − 1 is negative and nonzero;
the zero denominator is reachable only through i32 overflow wrap (see the
counterexample). -/
theorem degenerate_window_no_failfast (wl : ℤ) (minS maxS : ℚ)
    (mod : SpeedModificationType) (text : List Char)
    (hwl : wl * 5 < 2) (htext : text.head? ≠ some ' ') :
    (gen_audio_prev_vec_i32 text minS maxS mod wl).isSome ∧
    (-2147483648 ≤ wl * 5 →
      i32_wrap (wl * 5) - 1 < 0 ∧ i32_wrap (wl * 5) - 1 ≠ 0) := by
  constructor
  · exact gen_i32_isSome_of_head_ne_space text minS maxS mod wl htext
  · intro hlo
    have hwrap : i32_wrap (wl * 5) = wl * 5 := by
      unfold i32_wrap
      omega
    rw [hwrap]
    omega

/-- Witness for the amended claim C6 at windowLen = 0, modification =
Speedup, text "A". -/
theorem degenerate_window_no_failfast_witness :
    ((0 : ℤ) * 5 < 2 ∧ (['A'].head? ≠ some ' ')) ∧
    ((gen_audio_prev_vec_i32 ['A'] 100 110
        SpeedModificationType.Speedup 0).isSome ∧
      (-2147483648 ≤ (0 : ℤ) * 5 →
        i32_wrap ((0 : ℤ) * 5) - 1 < 0 ∧ i32_wrap ((0 : ℤ) * 5) - 1 ≠ 0)) :=
  ⟨⟨by norm_num, by decide⟩,
    degenerate_window_no_failfast 0 100 110 SpeedModificationType.Speedup
      ['A'] (by norm_num) (by decide)⟩

/-! ## Claim C9 -/

/-- Claim C9: for every input character that is not a space and not in the
Morse table, the encoder step does not fail: the character contributes no
Dot/Dash symbols, but still appends a CharacterGap when it is not the last
character, and still generates a speed-profile value and a SpeedMarker (and
advances the cyclic counter) when a modification is active. -/
theorem unknown_char_step (minS maxS : ℚ) (mod : SpeedModificationType)
    (N : ℤ) (c : Char) (isLast : Bool) (pat : List ℚ) (vec : List Char)
    (cn : ℤ) (hc : c ≠ ' ') (hm : morse_get c = Option.none) :
    encStep minS maxS mod N c isLast (pat, vec, cn) =
      some (pat ++ (if mod = SpeedModificationType.None then []
              else [speedOnChar mod minS maxS N cn]),
            vec ++ (if mod = SpeedModificationType.None then [] else ['|'])
              ++ (if isLast then [] else ['$']),
            if mod = SpeedModificationType.None then cn else wrapCn N cn) := by
  unfold encStep
  rw [markPart_eq]
  by_cases hmod : mod = SpeedModificationType.None
  · rw [if_neg (by simp [hmod]), if_pos hmod, if_pos hmod, if_pos hmod]
    rw [morsePart_eq, hm, gapPart_eq]
    cases isLast with
    | false => rw [if_pos ⟨hc, rfl⟩]; simp
    | true =>
      rw [if_neg (by simp), if_neg hc]
      simp
  · rw [if_pos ⟨hc, hmod⟩, if_neg hmod, if_neg hmod, if_neg hmod]
    rw [morsePart_eq, hm, gapPart_eq]
    cases isLast with
    | false => rw [if_pos ⟨hc, rfl⟩]; simp
    | true =>
      rw [if_neg (by simp), if_neg hc]
      simp

/-- Witness for claim C9 at the unsupported character `#` with an active
Speedup modification, not in last position. -/
theorem unknown_char_step_witness :
    (('#' : Char) ≠ ' ' ∧ morse_get '#' = Option.none) ∧
    encStep 100 110 SpeedModificationType.Speedup 10 '#' false ([], [], 0) =
      some ([] ++ (if SpeedModificationType.Speedup = SpeedModificationType.None
              then [] else [speedOnChar SpeedModificationType.Speedup 100 110 10 0]),
            [] ++ (if SpeedModificationType.Speedup = SpeedModificationType.None
              then [] else ['|'])
              ++ (if false then [] else ['$']),
            if SpeedModificationType.Speedup = SpeedModificationType.None then 0
              else wrapCn 10 0) :=
  ⟨⟨by decide, by decide⟩,
    unknown_char_step 100 110 SpeedModificationType.Speedup 10 '#' false [] [] 0
      (by decide) (by decide)⟩

/-! ## Claim C10 -/

/-- Claim C10: for every input text whose first character is not a space, the
encoder performs no out-of-bounds indexing: whenever a space character is
processed, the symbol vector built so far is nonempty, so the rewrite of the
most recently appended gap marker (index length − 1) is well defined, and
`gen_audio_prev_vec` returns a result rather than the modelled panic. -/
theorem no_oob_of_head_ne_space (text : List Char) (minS maxS : ℚ)
    (mod : SpeedModificationType) (wl : ℤ) (h : text.head? ≠ some ' ') :
    (gen_audio_prev_vec text minS maxS mod wl).isSome :=
  gen_isSome_of_head_ne_space text minS maxS mod wl h

/-- Witness for claim C10 at the text "A B" (which exercises the space
rewrite) with an active Speedup modification. -/
theorem no_oob_of_head_ne_space_witness :
    (['A', ' ', 'B'].head? ≠ some ' ') ∧
    (gen_audio_prev_vec ['A', ' ', 'B'] 100 110
      SpeedModificationType.Speedup 2).isSome :=
  ⟨by decide,
    no_oob_of_head_ne_space ['A', ' ', 'B'] 100 110
      SpeedModificationType.Speedup 2 (by decide)⟩

/-! ## Claim C8: speed-profile length equals the number of SpeedMarkers -/

/-- Facts about the code of a successful Morse lookup. -/
lemma morse_get_code_facts {c : Char} {code : List Char}
    (h : morse_get c = some code) :
    code ≠ [] ∧ (∀ t ∈ code, t = '.' ∨ t = '-') ∧
      decodeLookup code = some c := by
  have hm := morse_mem_facts _ (morse_get_mem h)
  exact hm

/-- Membership in an interspersed list. -/
lemma mem_intersperse {α : Type} {x s : α} :
    ∀ (l : List α), x ∈ List.intersperse s l → x = s ∨ x ∈ l
  | [], h => by simp at h
  | [a], h => by
    rw [List.intersperse_singleton] at h
    exact Or.inr h
  | a :: b :: t, h => by
    rw [List.intersperse_cons_cons, List.mem_cons, List.mem_cons] at h
    rcases h with h | h | h
    · exact Or.inr (by simp [h])
    · exact Or.inl h
    · rcases mem_intersperse (b :: t) h with h | h
      · exact Or.inl h
      · exact Or.inr (List.mem_cons_of_mem a h)

/-- The tones of a Morse code contribute no `|` symbols. -/
lemma count_marker_intersperse {code : List Char}
    (ht : ∀ t ∈ code, t = '.' ∨ t = '-') :
    (List.intersperse '*' code).count '|' = 0 := by
  rw [List.count_eq_zero]
  intro hmem
  rcases mem_intersperse code hmem with h | h
  · exact absurd h (by decide)
  · rcases ht _ h with h | h <;> exact absurd h (by decide)

/-- Dropping a last element that is not `x` keeps the count of `x`. -/
lemma dropLast_count_of_getLast_ne {l : List Char} {x : Char}
    (h : l ≠ []) (hl : l.getLast? ≠ some x) :
    l.dropLast.count x = l.count x := by
  conv_rhs => rw [← List.dropLast_concat_getLast h]
  rw [List.count_append]
  have hx : ¬ (l.getLast h == x) = true := by
    intro he
    apply hl
    rw [List.getLast?_eq_getLast l h]
    simpa using he
  simp [List.count_singleton, hx]

/-- One encoder step keeps the balance between the speed-pattern length and
the number of `|` markers, and (when not at the last character) leaves a
vector not ending in `|`. -/
lemma encStep_count (minS maxS : ℚ) (mod : SpeedModificationType) (N : ℤ)
    (c : Char) (isLast : Bool) (pat : List ℚ) (vec : List Char) (cn : ℤ)
    (pat₂ : List ℚ) (vec₂ : List Char) (cn₂ : ℤ)
    (hP : vec.getLast? ≠ some '|')
    (h : encStep minS maxS mod N c isLast (pat, vec, cn) = some (pat₂, vec₂, cn₂)) :
    pat₂.length + vec.count '|' = pat.length + vec₂.count '|' ∧
      (isLast = false → vec₂.getLast? ≠ some '|') := by
  by_cases hsp : c = ' '
  · subst hsp
    unfold encStep at h
    rw [markPart_eq, if_neg (by simp)] at h
    simp only [morsePart_eq, morse_get_space] at h
    rw [gapPart_eq, if_neg (by simp), if_pos rfl] at h
    by_cases hv : vec = []
    · rw [if_pos hv] at h
      simp at h
    · rw [if_neg hv] at h
      by_cases hwrap : cn = 0 ∧ mod ≠ SpeedModificationType.None
      · rw [if_pos hwrap] at h
        simp only [Option.some.injEq, Prod.mk.injEq] at h
        obtain ⟨h1, h2, h3⟩ := h
        subst h1; subst h2; subst h3
        constructor
        · have hd := dropLast_count_of_getLast_ne hv hP
          simp [hd]
          omega
        · intro _
          rw [show vec.dropLast ++ ['|', '/'] = (vec.dropLast ++ ['|']) ++ ['/'] by
                simp, List.getLast?_concat]
          simp
      · rw [if_neg hwrap] at h
        simp only [Option.some.injEq, Prod.mk.injEq] at h
        obtain ⟨h1, h2, h3⟩ := h
        subst h1; subst h2; subst h3
        constructor
        · have hd := dropLast_count_of_getLast_ne hv hP
          simp [hd]
        · intro _
          rw [List.getLast?_concat]
          simp
  · unfold encStep at h
    rw [markPart_eq] at h
    by_cases hmk : c ≠ ' ' ∧ mod ≠ SpeedModificationType.None
    · rw [if_pos hmk] at h
      cases hmg : morse_get c with
      | none =>
        simp only [morsePart_eq, hmg] at h
        rw [gapPart_eq] at h
        cases isLast with
        | false =>
          rw [if_pos ⟨hsp, rfl⟩] at h
          simp only [Option.some.injEq, Prod.mk.injEq] at h
          obtain ⟨h1, h2, h3⟩ := h
          subst h1; subst h2; subst h3
          refine ⟨by simp; omega, fun _ => ?_⟩
          rw [List.getLast?_concat]
          simp
        | true =>
          rw [if_neg (by simp), if_neg hsp] at h
          simp only [Option.some.injEq, Prod.mk.injEq] at h
          obtain ⟨h1, h2, h3⟩ := h
          subst h1; subst h2; subst h3
          exact ⟨by simp; omega, by simp⟩
      | some code =>
        have hts := (morse_get_code_facts hmg).2.1
        simp only [morsePart_eq, hmg] at h
        rw [gapPart_eq] at h
        cases isLast with
        | false =>
          rw [if_pos ⟨hsp, rfl⟩] at h
          simp only [Option.some.injEq, Prod.mk.injEq] at h
          obtain ⟨h1, h2, h3⟩ := h
          subst h1; subst h2; subst h3
          refine ⟨?_, fun _ => ?_⟩
          · simp [count_marker_intersperse hts]; omega
          · rw [show (vec ++ ['|']) ++ List.intersperse '*' code ++ ['$'] =
                ((vec ++ ['|']) ++ List.intersperse '*' code) ++ ['$'] by simp,
              List.getLast?_concat]
            simp
        | true =>
          rw [if_neg (by simp), if_neg hsp] at h
          simp only [Option.some.injEq, Prod.mk.injEq] at h
          obtain ⟨h1, h2, h3⟩ := h
          subst h1; subst h2; subst h3
          refine ⟨?_, by simp⟩
          simp [count_marker_intersperse hts]; omega
    · rw [if_neg hmk] at h
      cases hmg : morse_get c with
      | none =>
        simp only [morsePart_eq, hmg] at h
        rw [gapPart_eq] at h
        cases isLast with
        | false =>
          rw [if_pos ⟨hsp, rfl⟩] at h
          simp only [Option.some.injEq, Prod.mk.injEq] at h
          obtain ⟨h1, h2, h3⟩ := h
          subst h1; subst h2; subst h3
          refine ⟨by simp, fun _ => ?_⟩
          rw [List.getLast?_concat]
          simp
        | true =>
          rw [if_neg (by simp), if_neg hsp] at h
          simp only [Option.some.injEq, Prod.mk.injEq] at h
          obtain ⟨h1, h2, h3⟩ := h
          subst h1; subst h2; subst h3
          exact ⟨by simp, by simp⟩
      | some code =>
        have hts := (morse_get_code_facts hmg).2.1
        simp only [morsePart_eq, hmg] at h
        rw [gapPart_eq] at h
        cases isLast with
        | false =>
          rw [if_pos ⟨hsp, rfl⟩] at h
          simp only [Option.some.injEq, Prod.mk.injEq] at h
          obtain ⟨h1, h2, h3⟩ := h
          subst h1; subst h2; subst h3
          refine ⟨?_, fun _ => ?_⟩
          · simp [count_marker_intersperse hts]
          · rw [show vec ++ List.intersperse '*' code ++ ['$'] =
                (vec ++ List.intersperse '*' code) ++ ['$'] by simp,
              List.getLast?_concat]
            simp
        | true =>
          rw [if_neg (by simp), if_neg hsp] at h
          simp only [Option.some.injEq, Prod.mk.injEq] at h
          obtain ⟨h1, h2, h3⟩ := h
          subst h1; subst h2; subst h3
          refine ⟨?_, by simp⟩
          simp [count_marker_intersperse hts]

/-- The encoder loop keeps the pattern-length/marker-count balance. -/
lemma encGo_count (minS maxS : ℚ) (mod : SpeedModificationType) (N : ℤ) :
    ∀ (text : List Char) (pat : List ℚ) (vec : List Char) (cn : ℤ)
      (pat₂ : List ℚ) (vec₂ : List Char) (cn₂ : ℤ),
      vec.getLast? ≠ some '|' →
      encGo minS maxS mod N text (pat, vec, cn) = some (pat₂, vec₂, cn₂) →
      pat₂.length + vec.count '|' = pat.length + vec₂.count '|' := by
  intro text
  induction text with
  | nil =>
    intro pat vec cn pat₂ vec₂ cn₂ _ h
    simp only [encGo, Option.some.injEq, Prod.mk.injEq] at h
    obtain ⟨h1, h2, h3⟩ := h
    subst h1; subst h2
    rfl
  | cons c rest ih =>
    intro pat vec cn pat₂ vec₂ cn₂ hP h
    rw [encGo_cons] at h
    cases hstep : encStep minS maxS mod N c rest.isEmpty (pat, vec, cn) with
    | none => rw [hstep] at h; simp at h
    | some stM =>
      obtain ⟨patM, vecM, cnM⟩ := stM
      rw [hstep] at h
      have hc := encStep_count minS maxS mod N c rest.isEmpty pat vec cn
        patM vecM cnM hP hstep
      cases rest with
      | nil =>
        simp only [encGo, Option.some.injEq, Prod.mk.injEq] at h
        obtain ⟨h1, h2, h3⟩ := h
        subst h1; subst h2
        exact hc.1
      | cons d rest₂ =>
        have hP₂ := hc.2 rfl
        have hrec := ih patM vecM cnM pat₂ vec₂ cn₂ hP₂ h
        omega

/-- Claim C8: for every input text and every configuration, the length of the
speed profile returned by the encoder equals the number of SpeedMarker (`|`)
symbols in the returned symbol sequence. -/
theorem speed_profile_length (text : List Char) (minS maxS : ℚ)
    (mod : SpeedModificationType) (wl : ℤ) (pat : List ℚ) (vec : List Char)
    (h : gen_audio_prev_vec text minS maxS mod wl = some (pat, vec)) :
    pat.length = vec.count '|' := by
  unfold gen_audio_prev_vec at h
  cases hres : encGo minS maxS mod (wl * 5) text ([], [], 0) with
  | none => rw [hres] at h; simp at h
  | some st =>
    obtain ⟨p, v, cn⟩ := st
    rw [hres] at h
    simp only [Option.some.injEq, Prod.mk.injEq] at h
    obtain ⟨h1, h2⟩ := h
    subst h1; subst h2
    have := encGo_count minS maxS mod (wl * 5) text [] [] 0 p v cn
      (by simp) hres
    simpa using this

/-- Concrete Morse lookups used by witnesses. -/
lemma morse_get_A : morse_get 'A' = some ['.', '-'] := by decide

/-- Concrete Morse lookup for `B` used by witnesses. -/
lemma morse_get_B : morse_get 'B' = some ['-', '.', '.', '.'] := by decide

/-- Concrete Morse lookup for `E` used by witnesses. -/
lemma morse_get_E : morse_get 'E' = some ['.'] := by decide

/-- Witness for claim C8 on the text "A B" with an active Speedup
modification (two profile values, two markers). -/
theorem speed_profile_length_witness :
    gen_audio_prev_vec ['A', ' ', 'B'] 100 110 SpeedModificationType.Speedup 2 =
      some ([100, 910 / 9],
        ['|', '.', '*', '-', '/', '|', '-', '*', '.', '*', '.', '*', '.']) ∧
    ([100, (910 : ℚ) / 9].length =
      ['|', '.', '*', '-', '/', '|', '-', '*', '.', '*', '.', '*', '.'].count '|') :=
  ⟨by norm_num +decide [gen_audio_prev_vec, encGo, encStep, gapPart, morsePart,
      markPart, morse_get_A, morse_get_B, morse_get_space, wrapCn, speedOnChar],
    speed_profile_length ['A', ' ', 'B'] 100 110 SpeedModificationType.Speedup 2 _ _
      (by norm_num +decide [gen_audio_prev_vec, encGo, encStep, gapPart, morsePart,
        markPart, morse_get_A, morse_get_B, morse_get_space, wrapCn, speedOnChar])⟩

/-! ## Claim C2: Speedup profile formula -/

/-- Under an active modification, a step on a non-space character appends
exactly the current ramp value and wraps the counter. -/
lemma encStep_mark (minS maxS : ℚ) (mod : SpeedModificationType) (N : ℤ)
    {c : Char} (isLast : Bool) (pat : List ℚ) (vec : List Char) (cn : ℤ)
    (hc : c ≠ ' ') (hmod : mod ≠ SpeedModificationType.None) :
    ∃ vec₂, encStep minS maxS mod N c isLast (pat, vec, cn) =
      some (pat ++ [speedOnChar mod minS maxS N cn], vec₂, wrapCn N cn) := by
  unfold encStep
  rw [markPart_eq, if_pos ⟨hc, hmod⟩]
  obtain ⟨t₂, hmo⟩ := morsePart_shape c
    (pat ++ [speedOnChar mod minS maxS N cn]) (vec ++ ['|']) (wrapCn N cn)
  rw [hmo, gapPart_eq]
  cases isLast with
  | false => rw [if_pos ⟨hc, rfl⟩]; exact ⟨_, rfl⟩
  | true => rw [if_neg (by simp), if_neg hc]; exact ⟨_, rfl⟩

/-- The counter update agrees with modular increment inside the window. -/
lemma wrapCn_emod (N cn : ℤ) (h0 : 0 ≤ cn) (hN : cn < N) :
    wrapCn N cn = (cn + 1) % N := by
  unfold wrapCn
  by_cases h : cn + 1 = N
  · rw [if_pos h, h, Int.emod_self]
  · rw [if_neg h, Int.emod_eq_of_lt (by omega) (by omega)]

/-- Over a space-free text the generated speed pattern is the ramp evaluated
at consecutive counter values modulo N. -/
lemma encGo_pattern (minS maxS : ℚ) (mod : SpeedModificationType) (N : ℤ)
    (hmod : mod ≠ SpeedModificationType.None) :
    ∀ (text : List Char) (pat : List ℚ) (vec : List Char) (cn : ℤ),
      (∀ c ∈ text, c ≠ ' ') → 0 ≤ cn → cn < N →
      ∃ vec₂ cn₂, encGo minS maxS mod N text (pat, vec, cn) =
        some (pat ++ (List.range text.length).map
          (fun i : ℕ => speedOnChar mod minS maxS N ((cn + (i : ℤ)) % N)),
          vec₂, cn₂) := by
  intro text
  induction text with
  | nil =>
    intro pat vec cn _ _ _
    exact ⟨vec, cn, by simp [encGo]⟩
  | cons c rest ih =>
    intro pat vec cn hsp h0 hN
    have hc : c ≠ ' ' := hsp c (by simp)
    obtain ⟨vecM, hstep⟩ :=
      encStep_mark minS maxS mod N rest.isEmpty pat vec cn hc hmod
    have hNpos : 0 < N := by omega
    have hcn : wrapCn N cn = (cn + 1) % N := wrapCn_emod N cn h0 hN
    have h0₂ : 0 ≤ (cn + 1) % N := Int.emod_nonneg _ (by omega)
    have hN₂ : (cn + 1) % N < N := Int.emod_lt_of_pos _ hNpos
    obtain ⟨vec₂, cn₂, hrec⟩ :=
      ih (pat ++ [speedOnChar mod minS maxS N cn]) vecM ((cn + 1) % N)
        (fun x hx => hsp x (List.mem_cons_of_mem _ hx)) h0₂ hN₂
    refine ⟨vec₂, cn₂, ?_⟩
    rw [encGo_cons]
    rw [hcn] at hstep
    rw [hstep]
    show encGo minS maxS mod N rest _ = _
    rw [hrec]
    congr 1
    refine Prod.ext ?_ rfl
    show pat ++ [speedOnChar mod minS maxS N cn] ++ _ = pat ++ _
    rw [List.append_assoc]
    congr 1
    rw [List.length_cons, List.range_succ_eq_map, List.map_cons, List.map_map,
      List.singleton_append]
    congr 1
    · rw [Nat.cast_zero, Int.add_zero, Int.emod_eq_of_lt h0 hN]
    · refine List.map_congr_left ?_
      intro i _
      show speedOnChar mod minS maxS N (((cn + 1) % N + (i : ℤ)) % N) =
        speedOnChar mod minS maxS N ((cn + ((i : ℕ).succ : ℤ)) % N)
      congr 1
      rw [Int.emod_add_emod]
      congr 1
      push_cast
      ring

/-- Claim C2: for every configuration with modification = Speedup and a
space-free text, the speed-profile value at character index i equals
min + (max − min)/(N − 1) × (i mod N) with N = windowLen × 5 — the linear
ramp on indices in [0, N), wrapping back to the start after N steps. -/
theorem speedup_profile (text : List Char) (minS maxS : ℚ) (wl : ℤ)
    (hwl : 1 ≤ wl) (hsp : ∀ c ∈ text, c ≠ ' ') (pat : List ℚ) (vec : List Char)
    (h : gen_audio_prev_vec text minS maxS SpeedModificationType.Speedup wl =
      some (pat, vec)) :
    ∀ i : ℕ, i < text.length →
      pat[i]? = some (minS + (maxS - minS) / ((wl * 5 - 1 : ℤ) : ℚ) *
        (((i : ℤ) % (wl * 5) : ℤ) : ℚ)) := by
  unfold gen_audio_prev_vec at h
  obtain ⟨vec₂, cn₂, hgo⟩ := encGo_pattern minS maxS
    SpeedModificationType.Speedup (wl * 5) (by decide) text [] [] 0 hsp
    (le_refl 0) (by omega)
  simp only [hgo, Option.some.injEq, Prod.mk.injEq, List.nil_append] at h
  obtain ⟨h1, h2⟩ := h
  intro i hi
  rw [← h1, List.getElem?_map, List.getElem?_range hi]
  simp only [Option.map_some']
  congr 1
  show (maxS - minS) / ((wl * 5 - 1 : ℤ) : ℚ) * ((((0 : ℤ) + (i : ℤ)) % (wl * 5) : ℤ) : ℚ)
      + minS = _
  rw [Int.zero_add]
  ring

/-- Witness for claim C2: windowLen = 2 (N = 10), minSpeed = 100,
maxSpeed = 110, eleven characters; index 0 yields 100, index 9 yields 110 and
index 10 (wrapped) yields 100 again. -/
theorem speedup_profile_witness :
    ((1 : ℤ) ≤ 2 ∧
      gen_audio_prev_vec ['E', 'E', 'E', 'E', 'E', 'E', 'E', 'E', 'E', 'E', 'E']
        100 110 SpeedModificationType.Speedup 2 =
        some ([100, 910 / 9, 920 / 9, 930 / 9, 940 / 9, 950 / 9, 960 / 9,
               970 / 9, 980 / 9, 110, 100],
          ['|', '.', '$', '|', '.', '$', '|', '.', '$', '|', '.', '$', '|', '.',
           '$', '|', '.', '$', '|', '.', '$', '|', '.', '$', '|', '.', '$', '|',
           '.', '$', '|', '.'])) ∧
    ([100, 910 / 9, 920 / 9, 930 / 9, 940 / 9, 950 / 9, 960 / 9, 970 / 9,
      980 / 9, 110, (100 : ℚ)][0]? =
        some (100 + (110 - 100) / (((2 : ℤ) * 5 - 1 : ℤ) : ℚ) *
          ((((0 : ℕ) : ℤ) % (2 * 5) : ℤ) : ℚ)) ∧
     [100, 910 / 9, 920 / 9, 930 / 9, 940 / 9, 950 / 9, 960 / 9, 970 / 9,
      980 / 9, 110, (100 : ℚ)][9]? =
        some (100 + (110 - 100) / (((2 : ℤ) * 5 - 1 : ℤ) : ℚ) *
          ((((9 : ℕ) : ℤ) % (2 * 5) : ℤ) : ℚ)) ∧
     [100, 910 / 9, 920 / 9, 930 / 9, 940 / 9, 950 / 9, 960 / 9, 970 / 9,
      980 / 9, 110, (100 : ℚ)][10]? =
        some (100 + (110 - 100) / (((2 : ℤ) * 5 - 1 : ℤ) : ℚ) *
          ((((10 : ℕ) : ℤ) % (2 * 5) : ℤ) : ℚ))) := by
  have henc : gen_audio_prev_vec ['E', 'E', 'E', 'E', 'E', 'E', 'E', 'E', 'E', 'E', 'E']
      100 110 SpeedModificationType.Speedup 2 =
      some ([100, 910 / 9, 920 / 9, 930 / 9, 940 / 9, 950 / 9, 960 / 9,
             970 / 9, 980 / 9, 110, 100],
        ['|', '.', '$', '|', '.', '$', '|', '.', '$', '|', '.', '$', '|', '.',
         '$', '|', '.', '$', '|', '.', '$', '|', '.', '$', '|', '.', '$', '|',
         '.', '$', '|', '.']) := by
    norm_num +decide [gen_audio_prev_vec, encGo, encStep, gapPart, morsePart,
      markPart, morse_get_E, wrapCn, speedOnChar]
  refine ⟨⟨by norm_num, henc⟩, ?_, ?_, ?_⟩
  · exact speedup_profile _ 100 110 2 (by norm_num) (by decide) _ _ henc 0
      (by norm_num)
  · exact speedup_profile _ 100 110 2 (by norm_num) (by decide) _ _ henc 9
      (by norm_num)
  · exact speedup_profile _ 100 110 2 (by norm_num) (by decide) _ _ henc 10
      (by norm_num)

/-! ## Claim C3: the timing calculator against the spec walker -/

/-- The timing walk fails on a symbol missing from the table. -/
lemma timingGo_cons_none {tt : TextType} {speedPat : Option (List ℚ)}
    {tbl : Char → Option (ℤ × ℤ)} {e : Char} {rest : List Char}
    {dur stu : ℚ} {cn : ℕ} {cps : List ℕ} (htbl : tbl e = Option.none) :
    timingGo tt speedPat tbl (e :: rest) dur stu cn cps = Option.none := by
  simp [timingGo, htbl]

/-- The timing walk on a category-2 symbol with no speed profile. -/
lemma timingGo_cons_act2_nopat {tt : TextType}
    {tbl : Char → Option (ℤ × ℤ)} {e : Char} {rest : List Char}
    {dur stu : ℚ} {cn : ℕ} {cps : List ℕ} {mult : ℤ}
    (htbl : tbl e = some (2, mult)) :
    timingGo tt Option.none tbl (e :: rest) dur stu cn cps = Option.none := by
  simp [timingGo, htbl]

/-- The timing walk on a category-2 symbol with an exhausted speed profile. -/
lemma timingGo_cons_act2_oob {tt : TextType} {pat : List ℚ}
    {tbl : Char → Option (ℤ × ℤ)} {e : Char} {rest : List Char}
    {dur stu : ℚ} {cn : ℕ} {cps : List ℕ} {mult : ℤ}
    (htbl : tbl e = some (2, mult)) (hv : pat[cn]? = Option.none) :
    timingGo tt (some pat) tbl (e :: rest) dur stu cn cps = Option.none := by
  simp [timingGo, htbl, hv]

/-- The timing walk on a category-2 symbol consuming the next profile entry. -/
lemma timingGo_cons_act2 {tt : TextType} {pat : List ℚ}
    {tbl : Char → Option (ℤ × ℤ)} {e : Char} {rest : List Char}
    {dur stu : ℚ} {cn : ℕ} {cps : List ℕ} {mult : ℤ} {v : ℚ}
    (htbl : tbl e = some (2, mult)) (hv : pat[cn]? = some v) :
    timingGo tt (some pat) tbl (e :: rest) dur stu cn cps =
      timingGo tt (some pat) tbl rest (dur + stu * (mult : ℚ))
        (get_speed_from_text_type tt v) (cn + 1)
        (if e = '$' ∨ e = '/' then
          cps ++ [ratToMillis (dur + stu * (mult : ℚ))] else cps) := by
  simp [timingGo, htbl, hv]

/-- The timing walk on a symbol of any other category. -/
lemma timingGo_cons_other {tt : TextType} {speedPat : Option (List ℚ)}
    {tbl : Char → Option (ℤ × ℤ)} {e : Char} {rest : List Char}
    {dur stu : ℚ} {cn : ℕ} {cps : List ℕ} {act mult : ℤ}
    (htbl : tbl e = some (act, mult)) (hact : act ≠ 2) :
    timingGo tt speedPat tbl (e :: rest) dur stu cn cps =
      timingGo tt speedPat tbl rest (dur + stu * (mult : ℚ)) stu cn
        (if e = '$' ∨ e = '/' then
          cps ++ [ratToMillis (dur + stu * (mult : ℚ))] else cps) := by
  simp [timingGo, htbl, hact]

/-- The spec walker fails on a symbol missing from the table. -/
lemma spec_cons_none {tt : TextType} {speedPat : Option (List ℚ)}
    {tbl : Char → Option (ℤ × ℤ)} {e : Char} {rest : List Char}
    {stu : ℚ} {cn : ℕ} (htbl : tbl e = Option.none) :
    specSymbolDurations tt speedPat tbl (e :: rest) stu cn = Option.none := by
  simp [specSymbolDurations, htbl]

/-- The spec walker on a category-2 symbol with no speed profile. -/
lemma spec_cons_act2_nopat {tt : TextType}
    {tbl : Char → Option (ℤ × ℤ)} {e : Char} {rest : List Char}
    {stu : ℚ} {cn : ℕ} {mult : ℤ} (htbl : tbl e = some (2, mult)) :
    specSymbolDurations tt Option.none tbl (e :: rest) stu cn = Option.none := by
  simp [specSymbolDurations, htbl]

/-- The spec walker on a category-2 symbol consuming the next profile entry. -/
lemma spec_cons_act2 {tt : TextType} {pat : List ℚ}
    {tbl : Char → Option (ℤ × ℤ)} {e : Char} {rest : List Char}
    {stu : ℚ} {cn : ℕ} {mult : ℤ} {v : ℚ}
    (htbl : tbl e = some (2, mult)) (hv : pat[cn]? = some v) :
    specSymbolDurations tt (some pat) tbl (e :: rest) stu cn =
      match specSymbolDurations tt (some pat) tbl rest
          (get_speed_from_text_type tt v) (cn + 1) with
      | Option.none => Option.none
      | some ds => some (stu * (mult : ℚ) :: ds) := by
  simp only [specSymbolDurations, htbl, hv, if_pos rfl, if_true,
    eq_self_iff_true]

/-- The spec walker on a symbol of any other category. -/
lemma spec_cons_other {tt : TextType} {speedPat : Option (List ℚ)}
    {tbl : Char → Option (ℤ × ℤ)} {e : Char} {rest : List Char}
    {stu : ℚ} {cn : ℕ} {act mult : ℤ}
    (htbl : tbl e = some (act, mult)) (hact : act ≠ 2) :
    specSymbolDurations tt speedPat tbl (e :: rest) stu cn =
      match specSymbolDurations tt speedPat tbl rest stu cn with
      | Option.none => Option.none
      | some ds => some (stu * (mult : ℚ) :: ds) := by
  simp [specSymbolDurations, htbl, hact]

/-- Appending the conditional checkpoint adds one entry per `$` or `/`. -/
lemma cps_extra_length {e : Char} {rest : List Char} {extra : List ℕ} {m : ℕ}
    (h4 : extra.length = rest.count '$' + rest.count '/') :
    ((if e = '$' ∨ e = '/' then [m] else []) ++ extra).length =
      (e :: rest).count '$' + (e :: rest).count '/' := by
  by_cases hgap : e = '$' ∨ e = '/'
  · rcases hgap with hgap | hgap <;> subst hgap <;>
      simp [List.count_cons, h4] <;> omega
  · have h5 : ¬ e = '$' := fun he => hgap (Or.inl he)
    have h6 : ¬ e = '/' := fun he => hgap (Or.inr he)
    simp [List.count_cons, h4, h5, h6]

/-- The timing walk refines the spec walker: when it returns, the spec-side
per-symbol duration list exists, the final duration is the starting duration
plus that list's sum, and the checkpoints grow by exactly one entry per `$`
and per `/`. -/
lemma timingGo_spec (tt : TextType) (speedPat : Option (List ℚ))
    (tbl : Char → Option (ℤ × ℤ)) :
    ∀ (rest : List Char) (dur stu : ℚ) (cn : ℕ) (cps : List ℕ)
      (total : ℚ) (cpsF : List ℕ),
      timingGo tt speedPat tbl rest dur stu cn cps = some (total, cpsF) →
      ∃ ds extra, specSymbolDurations tt speedPat tbl rest stu cn = some ds ∧
        total = dur + ds.sum ∧ cpsF = cps ++ extra ∧
        extra.length = rest.count '$' + rest.count '/' := by
  intro rest
  induction rest with
  | nil =>
    intro dur stu cn cps total cpsF h
    simp only [timingGo, Option.some.injEq, Prod.mk.injEq] at h
    obtain ⟨h1, h2⟩ := h
    refine ⟨[], [], rfl, by simp [← h1], by simp [← h2], by simp⟩
  | cons e rest ih =>
    intro dur stu cn cps total cpsF h
    cases htbl : tbl e with
    | none => rw [timingGo_cons_none htbl] at h; simp at h
    | some am =>
      obtain ⟨act, mult⟩ := am
      by_cases hact : act = 2
      · subst hact
        cases hpat : speedPat with
        | none =>
          subst hpat
          rw [timingGo_cons_act2_nopat htbl] at h
          simp at h
        | some pat =>
          subst hpat
          cases hv : pat[cn]? with
          | none =>
            rw [timingGo_cons_act2_oob htbl hv] at h
            simp at h
          | some v =>
            rw [timingGo_cons_act2 htbl hv] at h
            obtain ⟨ds, extra, h1, h2, h3, h4⟩ := ih _ _ _ _ _ _ h
            refine ⟨stu * (mult : ℚ) :: ds,
              (if e = '$' ∨ e = '/' then [ratToMillis (dur + stu * (mult : ℚ))]
                else []) ++ extra, ?_, ?_, ?_, cps_extra_length h4⟩
            · rw [spec_cons_act2 htbl hv, h1]
            · rw [h2, List.sum_cons]
              ring
            · rw [h3]
              by_cases hgap : e = '$' ∨ e = '/'
              · rw [if_pos hgap, if_pos hgap, List.append_assoc]
              · rw [if_neg hgap, if_neg hgap, List.nil_append]
      · rw [timingGo_cons_other htbl hact] at h
        obtain ⟨ds, extra, h1, h2, h3, h4⟩ := ih _ _ _ _ _ _ h
        refine ⟨stu * (mult : ℚ) :: ds,
          (if e = '$' ∨ e = '/' then [ratToMillis (dur + stu * (mult : ℚ))]
            else []) ++ extra, ?_, ?_, ?_, cps_extra_length h4⟩
        · rw [spec_cons_other htbl hact, h1]
        · rw [h2, List.sum_cons]
          ring
        · rw [h3]
          by_cases hgap : e = '$' ∨ e = '/'
          · rw [if_pos hgap, if_pos hgap, List.append_assoc]
          · rw [if_neg hgap, if_neg hgap, List.nil_append]

/-- Claim C3: for every symbol sequence, table and speed profile on which the
timing calculator returns, it accumulates duration as
unitSeconds × durationUnits per symbol — recomputing unitSeconds from the next
unconsumed speed-profile entry at each category-2 SpeedMarker (the spec-side
walker `specSymbolDurations`) — its checkpoint list begins with 0 and contains
one cumulative-duration entry per `$` and per `/`, and the reported total
equals the sum of the per-symbol durations (exactly, over ℚ). -/
theorem timing_refines_spec (vec : List Char) (tt : TextType) (speed : ℚ)
    (speedPat : Option (List ℚ)) (tbl : Char → Option (ℤ × ℤ))
    (total : ℚ) (cps : List ℕ)
    (h : get_time_and_timings vec tt speed speedPat tbl = some (total, cps)) :
    ∃ ds, specSymbolDurations tt speedPat tbl vec
        (get_speed_from_text_type tt speed) 0 = some ds ∧
      total = ds.sum ∧ cps.head? = some 0 ∧
      cps.length = 1 + vec.count '$' + vec.count '/' := by
  unfold get_time_and_timings at h
  obtain ⟨ds, extra, h1, h2, h3, h4⟩ :=
    timingGo_spec tt speedPat tbl vec 0 (get_speed_from_text_type tt speed)
      0 [0] total cps h
  refine ⟨ds, h1, by simpa using h2, ?_, ?_⟩
  · rw [h3]
    rfl
  · rw [h3]
    simp [h4]
    omega

/-- Witness for claim C3 on the encoded "SOS" sequence. -/
theorem timing_refines_spec_witness :
    get_time_and_timings
        ['.', '*', '.', '*', '.', '$', '-', '*', '-', '*', '-', '$',
         '.', '*', '.', '*', '.'] TextType.Letters 100 (some [])
        default_actions_length = some (27 / 20, [0, 400, 1100]) ∧
    (∃ ds, specSymbolDurations TextType.Letters (some [])
        default_actions_length
        ['.', '*', '.', '*', '.', '$', '-', '*', '-', '*', '-', '$',
         '.', '*', '.', '*', '.']
        (get_speed_from_text_type TextType.Letters 100) 0 = some ds ∧
      (27 / 20 : ℚ) = ds.sum ∧ [0, 400, 1100].head? = some 0 ∧
      [0, 400, 1100].length = 1 +
        ['.', '*', '.', '*', '.', '$', '-', '*', '-', '*', '-', '$',
         '.', '*', '.', '*', '.'].count '$' +
        ['.', '*', '.', '*', '.', '$', '-', '*', '-', '*', '-', '$',
         '.', '*', '.', '*', '.'].count '/') := by
  have h : get_time_and_timings
      ['.', '*', '.', '*', '.', '$', '-', '*', '-', '*', '-', '$',
       '.', '*', '.', '*', '.'] TextType.Letters 100 (some [])
      default_actions_length = some (27 / 20, [0, 400, 1100]) := by
    norm_num +decide [get_time_and_timings, timingGo, ratToMillis,
      default_actions_length, get_speed_from_text_type, LETTERS_DURATION]
  exact ⟨h, timing_refines_spec _ _ _ _ _ _ _ h⟩

/-! ## Claim C4: decoding the encoder output recovers the text -/

/-- Unfolding of the decoding walk on a cons cell. -/
lemma decodeGo_cons (s : Char) (rest : List Char) (st : DecSt) :
    decodeGo (s :: rest) st =
      match decodeStep s st with
      | Option.none => Option.none
      | some st₂ => decodeGo rest st₂ := rfl

/-- A successful decoding step lets the walk continue. -/
lemma decodeGo_cons_some {s : Char} {rest : List Char} {st st₂ : DecSt}
    (h : decodeStep s st = some st₂) :
    decodeGo (s :: rest) st = decodeGo rest st₂ := by
  rw [decodeGo_cons, h]

/-- The decoding walk distributes over append. -/
lemma decodeGo_append :
    ∀ (a b : List Char) (st : DecSt),
      decodeGo (a ++ b) st =
        match decodeGo a st with
        | Option.none => Option.none
        | some st₂ => decodeGo b st₂ := by
  intro a
  induction a with
  | nil => intro b st; simp [decodeGo]
  | cons s rest ih =>
    intro b st
    show decodeGo (s :: (rest ++ b)) st = _
    rw [decodeGo_cons, decodeGo_cons]
    cases hs : decodeStep s st with
    | none => rfl
    | some st₂ => exact ih b st₂

/-- A successful prefix lets the decoding walk continue on the suffix. -/
lemma decodeGo_append_some {a b : List Char} {st mid : DecSt}
    (h : decodeGo a st = some mid) :
    decodeGo (a ++ b) st = decodeGo b mid := by
  rw [decodeGo_append, h]

/-- A decoding step on a tone accumulates it in the current group. -/
lemma decodeStep_tone {s : Char} (hs : s = '.' ∨ s = '-')
    (ws : List (List Char)) (wacc gacc : List Char) :
    decodeStep s (ws, wacc, gacc) = some (ws, wacc, gacc ++ [s]) := by
  simp [decodeStep, hs]

/-- A decoding step on an IntraGap is a no-op. -/
lemma decodeStep_star (st : DecSt) : decodeStep '*' st = some st := by
  obtain ⟨ws, wacc, gacc⟩ := st
  simp [decodeStep]

/-- A decoding step on a SpeedMarker is a no-op. -/
lemma decodeStep_pipe (st : DecSt) : decodeStep '|' st = some st := by
  obtain ⟨ws, wacc, gacc⟩ := st
  simp [decodeStep]

/-- A decoding step on a CharacterGap closes the current group. -/
lemma decodeStep_chargap {gacc : List Char} {c : Char}
    (h : decodeLookup gacc = some c) (ws : List (List Char)) (wacc : List Char) :
    decodeStep '$' (ws, wacc, gacc) = some (ws, wacc ++ [c], []) := by
  simp [decodeStep, h]

/-- A decoding step on a WordGap closes the current group and word. -/
lemma decodeStep_wordgap {gacc : List Char} {c : Char}
    (h : decodeLookup gacc = some c) (ws : List (List Char)) (wacc : List Char) :
    decodeStep '/' (ws, wacc, gacc) = some (ws ++ [wacc ++ [c]], [], []) := by
  simp [decodeStep, h]

/-- Decoding the interspersed tones of a code accumulates exactly the code. -/
lemma decodeGo_tones :
    ∀ (code : List Char), (∀ t ∈ code, t = '.' ∨ t = '-') →
      ∀ (ws : List (List Char)) (wacc gacc : List Char),
        decodeGo (List.intersperse '*' code) (ws, wacc, gacc) =
          some (ws, wacc, gacc ++ code)
  | [], _, ws, wacc, gacc => by simp [decodeGo]
  | [t], h, ws, wacc, gacc => by
    rw [List.intersperse_singleton,
      decodeGo_cons_some (decodeStep_tone (h t (by simp)) ws wacc gacc)]
    simp [decodeGo]
  | t :: t₂ :: rest, h, ws, wacc, gacc => by
    rw [List.intersperse_cons_cons,
      decodeGo_cons_some (decodeStep_tone (h t (by simp)) ws wacc gacc),
      decodeGo_cons_some (decodeStep_star _)]
    rw [decodeGo_tones (t₂ :: rest) (fun x hx => h x (by simp [hx])) ws wacc
      (gacc ++ [t])]
    simp

/-- A character with a Morse code is not the space. -/
lemma ne_space_of_morse_some {c : Char} (h : (morse_get c).isSome) :
    c ≠ ' ' := by
  intro he
  subst he
  rw [morse_get_space] at h
  simp at h

/-- A successful step lets the encoder loop continue. -/
lemma encGo_cons_some {minS maxS : ℚ} {mod : SpeedModificationType} {N : ℤ}
    {c : Char} {rest : List Char} {b : Bool} {st st₂ : EncSt}
    (hb : rest.isEmpty = b)
    (h : encStep minS maxS mod N c b st = some st₂) :
    encGo minS maxS mod N (c :: rest) st = encGo minS maxS mod N rest st₂ := by
  rw [encGo_cons, hb, h]

/-- A non-last step on a character with a Morse code pushes an optional
marker, the interspersed tones, and a closing `$`. -/
lemma encStep_known_notLast (minS maxS : ℚ) (mod : SpeedModificationType)
    (N : ℤ) {c : Char} {code : List Char} (pat : List ℚ) (vec : List Char)
    (cn : ℤ) (hc : c ≠ ' ') (hmg : morse_get c = some code) :
    ∃ mp mv cn₂, (mv = [] ∨ mv = ['|']) ∧
      encStep minS maxS mod N c false (pat, vec, cn) =
        some (pat ++ mp, vec ++ (mv ++ List.intersperse '*' code ++ ['$']), cn₂) := by
  unfold encStep
  rw [markPart_eq]
  by_cases hmk : c ≠ ' ' ∧ mod ≠ SpeedModificationType.None
  · rw [if_pos hmk, morsePart_eq, hmg, gapPart_eq, if_pos ⟨hc, rfl⟩]
    exact ⟨[speedOnChar mod minS maxS N cn], ['|'], wrapCn N cn, Or.inr rfl,
      by simp⟩
  · rw [if_neg hmk, morsePart_eq, hmg, gapPart_eq, if_pos ⟨hc, rfl⟩]
    exact ⟨[], [], cn, Or.inl rfl, by simp⟩

/-- A last step on a character with a Morse code pushes an optional marker and
the interspersed tones, with no closing gap. -/
lemma encStep_known_last (minS maxS : ℚ) (mod : SpeedModificationType)
    (N : ℤ) {c : Char} {code : List Char} (pat : List ℚ) (vec : List Char)
    (cn : ℤ) (hc : c ≠ ' ') (hmg : morse_get c = some code) :
    ∃ mp mv cn₂, (mv = [] ∨ mv = ['|']) ∧
      encStep minS maxS mod N c true (pat, vec, cn) =
        some (pat ++ mp, vec ++ (mv ++ List.intersperse '*' code), cn₂) := by
  unfold encStep
  rw [markPart_eq]
  by_cases hmk : c ≠ ' ' ∧ mod ≠ SpeedModificationType.None
  · rw [if_pos hmk, morsePart_eq, hmg, gapPart_eq, if_neg (by simp), if_neg hc]
    exact ⟨[speedOnChar mod minS maxS N cn], ['|'], wrapCn N cn, Or.inr rfl,
      by simp⟩
  · rw [if_neg hmk, morsePart_eq, hmg, gapPart_eq, if_neg (by simp), if_neg hc]
    exact ⟨[], [], cn, Or.inl rfl, by simp⟩

/-- A step on a space after a `$`-terminated vector rewrites that `$` to a
`/` (with an extra marker and profile value at a counter wrap). -/
lemma encStep_space (minS maxS : ℚ) (mod : SpeedModificationType) (N : ℤ)
    (isLast : Bool) (pat : List ℚ) (vec B₀ : List Char) (cn : ℤ) :
    encStep minS maxS mod N ' ' isLast (pat, vec ++ (B₀ ++ ['$']), cn) =
      if cn = 0 ∧ mod ≠ SpeedModificationType.None then
        some (pat ++ [minS], vec ++ (B₀ ++ ['|', '/']), cn)
      else some (pat, vec ++ (B₀ ++ ['/']), cn) := by
  unfold encStep
  rw [markPart_eq, if_neg (by simp), morsePart_eq, morse_get_space,
    gapPart_eq, if_neg (by simp), if_pos rfl,
    if_neg (by simp)]
  have hd : (vec ++ (B₀ ++ ['$'])).dropLast = vec ++ B₀ := by
    rw [show vec ++ (B₀ ++ ['$']) = (vec ++ B₀) ++ ['$'] by simp,
      List.dropLast_concat]
  rw [hd]
  by_cases hw : cn = 0 ∧ mod ≠ SpeedModificationType.None
  · rw [if_pos hw, if_pos hw]
    simp
  · rw [if_neg hw, if_neg hw]
    simp

/-- Replacing the closing `$` of a decodable block by `/` (with or without a
preceding marker) closes the current word instead of the current character. -/
lemma decode_gap_swap {B : List Char} {ws ws₂ : List (List Char)}
    {wacc wacc₂ : List Char}
    (h : decodeGo (B ++ ['$']) (ws, wacc, []) = some (ws₂, wacc₂, [])) :
    decodeGo (B ++ ['/']) (ws, wacc, []) = some (ws₂ ++ [wacc₂], [], []) ∧
    decodeGo (B ++ ['|', '/']) (ws, wacc, []) = some (ws₂ ++ [wacc₂], [], []) := by
  cases hB : decodeGo B (ws, wacc, []) with
  | none =>
    rw [decodeGo_append, hB] at h
    simp at h
  | some mid =>
    obtain ⟨mw, mwacc, mg⟩ := mid
    rw [decodeGo_append_some hB] at h
    cases hlk : decodeLookup mg with
    | none =>
      rw [decodeGo_cons,
        show decodeStep '$' (mw, mwacc, mg) = Option.none from
          by simp [decodeStep, hlk]] at h
      simp at h
    | some c =>
      rw [decodeGo_cons_some (decodeStep_chargap hlk mw mwacc)] at h
      simp only [decodeGo, Option.some.injEq, Prod.mk.injEq] at h
      obtain ⟨h1, h2, _⟩ := h
      subst h1; subst h2
      constructor
      · rw [decodeGo_append_some hB,
          decodeGo_cons_some (decodeStep_wordgap hlk mw mwacc)]
        simp [decodeGo]
      · rw [decodeGo_append_some hB,
          decodeGo_cons_some (decodeStep_pipe _),
          decodeGo_cons_some (decodeStep_wordgap hlk mw mwacc)]
        simp [decodeGo]

/-- Processing a word of in-table characters (with more text following)
appends a decodable block that ends in `$` and extends the current decoded
word by exactly that word. -/
lemma encGo_word (minS maxS : ℚ) (mod : SpeedModificationType) (N : ℤ) :
    ∀ (w : List Char), (∀ c ∈ w, (morse_get c).isSome) →
      ∀ (tail : List Char), tail ≠ [] →
      ∀ (pat : List ℚ) (vec : List Char) (cn : ℤ),
      ∃ patAdd B cn₂,
        encGo minS maxS mod N (w ++ tail) (pat, vec, cn) =
          encGo minS maxS mod N tail (pat ++ patAdd, vec ++ B, cn₂) ∧
        (∀ (ws : List (List Char)) (wacc : List Char),
          decodeGo B (ws, wacc, []) = some (ws, wacc ++ w, [])) ∧
        (w = [] → B = []) ∧
        (w ≠ [] → ∃ B₀, B = B₀ ++ ['$']) := by
  intro w
  induction w with
  | nil =>
    intro _ tail _ pat vec cn
    refine ⟨[], [], cn, by simp, ?_, fun _ => rfl, fun h => absurd rfl h⟩
    intro ws wacc
    simp [decodeGo]
  | cons c w' ih =>
    intro htab tail htail pat vec cn
    have hcs : (morse_get c).isSome := htab c (by simp)
    obtain ⟨code, hmg⟩ := Option.isSome_iff_exists.mp hcs
    have hc : c ≠ ' ' := ne_space_of_morse_some hcs
    obtain ⟨mp, mv, cn₂, hmv, hstep⟩ :=
      encStep_known_notLast minS maxS mod N pat vec cn hc hmg
    have hwt : w' ++ tail ≠ [] := fun hh => htail (List.append_eq_nil.mp hh).2
    have hie : (w' ++ tail).isEmpty = false := by
      rw [List.isEmpty_eq_false]
      exact hwt
    obtain ⟨patAdd', B', cn₃, henc', hdec', hnil', hlast'⟩ :=
      ih (fun x hx => htab x (by simp [hx])) tail htail
        (pat ++ mp) (vec ++ (mv ++ List.intersperse '*' code ++ ['$'])) cn₂
    have hdecBc : ∀ (ws : List (List Char)) (wacc : List Char),
        decodeGo (mv ++ List.intersperse '*' code ++ ['$']) (ws, wacc, []) =
          some (ws, wacc ++ [c], []) := by
      intro ws wacc
      have hts := (morse_get_code_facts hmg).2.1
      have hlk := (morse_get_code_facts hmg).2.2
      have hmvdec : decodeGo mv (ws, wacc, ([] : List Char)) =
          some (ws, wacc, []) := by
        rcases hmv with h | h <;> subst h
        · simp [decodeGo]
        · rw [decodeGo_cons_some (decodeStep_pipe _)]
          simp [decodeGo]
      have hmid : decodeGo (List.intersperse '*' code) (ws, wacc, []) =
          some (ws, wacc, code) := by
        simpa using decodeGo_tones code hts ws wacc []
      rw [List.append_assoc, decodeGo_append_some hmvdec,
        decodeGo_append_some hmid,
        decodeGo_cons_some (decodeStep_chargap hlk ws wacc)]
      simp [decodeGo]
    refine ⟨mp ++ patAdd', (mv ++ List.intersperse '*' code ++ ['$']) ++ B',
      cn₃, ?_, ?_, by simp, ?_⟩
    · rw [show (c :: w') ++ tail = c :: (w' ++ tail) by simp,
        encGo_cons_some hie hstep, henc']
      simp [List.append_assoc]
    · intro ws wacc
      rw [decodeGo_append_some (hdecBc ws wacc), hdec' ws (wacc ++ [c])]
      simp
    · intro _
      by_cases hw' : w' = []
      · subst hw'
        rw [hnil' rfl, List.append_nil]
        exact ⟨mv ++ List.intersperse '*' code, rfl⟩
      · obtain ⟨B₀, hB₀⟩ := hlast' hw'
        exact ⟨(mv ++ List.intersperse '*' code ++ ['$']) ++ B₀,
          by rw [hB₀]; simp⟩

/-- Main induction for claim C4: encoding a space-joined list of nonempty
in-table words from any decodable state succeeds and decodes back to the
already-decoded words followed by those words. -/
lemma encode_decode_main (minS maxS : ℚ) (mod : SpeedModificationType)
    (N : ℤ) :
    ∀ (words : List (List Char)),
      (∀ w ∈ words, w ≠ [] ∧ ∀ c ∈ w, (morse_get c).isSome) →
      ∀ (pat : List ℚ) (vec : List Char) (cn : ℤ) (ws : List (List Char)),
        decodeGo vec ([], [], []) = some (ws, [], []) →
        words ≠ [] →
        ∃ pat₂ vec₂ cn₂,
          encGo minS maxS mod N (joinWords words) (pat, vec, cn) =
            some (pat₂, vec₂, cn₂) ∧
          decode vec₂ = some (ws ++ words) := by
  intro words
  induction words with
  | nil =>
    intro _ pat vec cn ws _ hne
    exact absurd rfl hne
  | cons w rest ih =>
    intro hvalid pat vec cn ws hdec _
    obtain ⟨hw_ne, hw_tab⟩ := hvalid w (by simp)
    cases rest with
    | nil =>
      obtain ⟨w₁, c, hw⟩ : ∃ w₁ c, w = w₁ ++ [c] :=
        ⟨w.dropLast, w.getLast hw_ne, (List.dropLast_concat_getLast hw_ne).symm⟩
      subst hw
      have htab₁ : ∀ x ∈ w₁, (morse_get x).isSome :=
        fun x hx => hw_tab x (by simp [hx])
      have hcs : (morse_get c).isSome := hw_tab c (by simp)
      obtain ⟨code, hmg⟩ := Option.isSome_iff_exists.mp hcs
      have hcne : c ≠ ' ' := ne_space_of_morse_some hcs
      obtain ⟨patAdd, B, cn₂, henc, hdecB, _, _⟩ :=
        encGo_word minS maxS mod N w₁ htab₁ [c] (by simp) pat vec cn
      obtain ⟨mp, mv, cn₃, hmv, hstep⟩ :=
        encStep_known_last minS maxS mod N (pat ++ patAdd) (vec ++ B) cn₂
          hcne hmg
      refine ⟨(pat ++ patAdd) ++ mp,
        (vec ++ B) ++ (mv ++ List.intersperse '*' code), cn₃, ?_, ?_⟩
      · show encGo minS maxS mod N (w₁ ++ [c]) (pat, vec, cn) = _
        rw [henc, encGo_cons_some rfl hstep]
        rfl
      · have hts := (morse_get_code_facts hmg).2.1
        have hB : decodeGo (vec ++ B) ([], [], []) = some (ws, w₁, []) := by
          rw [decodeGo_append_some hdec, hdecB ws []]
          simp
        have hmvdec : decodeGo mv (ws, w₁, ([] : List Char)) =
            some (ws, w₁, []) := by
          rcases hmv with h | h <;> subst h
          · simp [decodeGo]
          · rw [decodeGo_cons_some (decodeStep_pipe _)]
            simp [decodeGo]
        have h1 : decodeGo ((vec ++ B) ++ (mv ++ List.intersperse '*' code))
            ([], [], []) = some (ws, w₁, code) := by
          rw [decodeGo_append_some hB, decodeGo_append_some hmvdec]
          simpa using decodeGo_tones code hts ws w₁ []
        simp only [decode, h1, (morse_get_code_facts hmg).2.2]
    | cons w₂ rest₂ =>
      obtain ⟨patAdd, B, cn₂, henc, hdecB, hBnil, hBlast⟩ :=
        encGo_word minS maxS mod N w hw_tab
          (' ' :: joinWords (w₂ :: rest₂)) (by simp) pat vec cn
      obtain ⟨B₀, hB₀⟩ := hBlast hw_ne
      subst hB₀
      have hgap : decodeGo (B₀ ++ ['$']) (ws, [], []) = some (ws, w, []) := by
        simpa using hdecB ws []
      by_cases hwrap : cn₂ = 0 ∧ mod ≠ SpeedModificationType.None
      · have hstep := encStep_space minS maxS mod N
          (joinWords (w₂ :: rest₂)).isEmpty (pat ++ patAdd) vec B₀ cn₂
        rw [if_pos hwrap] at hstep
        have hdecfull : decodeGo (vec ++ (B₀ ++ ['|', '/'])) ([], [], []) =
            some (ws ++ [w], [], []) := by
          rw [decodeGo_append_some hdec]
          exact (decode_gap_swap hgap).2
        obtain ⟨pat₂, vec₂, cn₃, henc₂, hdec₂⟩ :=
          ih (fun x hx => hvalid x (by simp [hx]))
            ((pat ++ patAdd) ++ [minS]) (vec ++ (B₀ ++ ['|', '/'])) cn₂
            (ws ++ [w]) hdecfull (by simp)
        refine ⟨pat₂, vec₂, cn₃, ?_, by simpa using hdec₂⟩
        show encGo minS maxS mod N (w ++ (' ' :: joinWords (w₂ :: rest₂)))
          (pat, vec, cn) = _
        rw [henc, encGo_cons_some rfl hstep, henc₂]
      · have hstep := encStep_space minS maxS mod N
          (joinWords (w₂ :: rest₂)).isEmpty (pat ++ patAdd) vec B₀ cn₂
        rw [if_neg hwrap] at hstep
        have hdecfull : decodeGo (vec ++ (B₀ ++ ['/'])) ([], [], []) =
            some (ws ++ [w], [], []) := by
          rw [decodeGo_append_some hdec]
          exact (decode_gap_swap hgap).1
        obtain ⟨pat₂, vec₂, cn₃, henc₂, hdec₂⟩ :=
          ih (fun x hx => hvalid x (by simp [hx]))
            (pat ++ patAdd) (vec ++ (B₀ ++ ['/'])) cn₂
            (ws ++ [w]) hdecfull (by simp)
        refine ⟨pat₂, vec₂, cn₃, ?_, by simpa using hdec₂⟩
        show encGo minS maxS mod N (w ++ (' ' :: joinWords (w₂ :: rest₂)))
          (pat, vec, cn) = _
        rw [henc, encGo_cons_some rfl hstep, henc₂]

/-- Claim C4: for every text consisting of nonempty words of supported
characters joined by single spaces (no leading or trailing space) and every
configuration, decoding the Tone/Gap structure of the encoder output —
splitting on `/` into words, on `$` into characters, looking each Dot/Dash
group up in the Morse table and ignoring `*` and `|` — recovers the original
word list, i.e. the original uppercase text. -/
theorem encode_decode_roundtrip (words : List (List Char)) (minS maxS : ℚ)
    (mod : SpeedModificationType) (wl : ℤ) (hne : words ≠ [])
    (hvalid : ∀ w ∈ words, w ≠ [] ∧ ∀ c ∈ w, (morse_get c).isSome)
    (pat : List ℚ) (vec : List Char)
    (h : gen_audio_prev_vec (joinWords words) minS maxS mod wl =
      some (pat, vec)) :
    decode vec = some words := by
  unfold gen_audio_prev_vec at h
  obtain ⟨pat₂, vec₂, cn₂, henc, hdec⟩ :=
    encode_decode_main minS maxS mod (wl * 5) words hvalid [] [] 0 []
      (by simp [decodeGo]) hne
  simp only [henc, Option.some.injEq, Prod.mk.injEq] at h
  obtain ⟨h1, h2⟩ := h
  rw [← h2]
  simpa using hdec

/-- Witness for claim C4 on the two-word text "A B" with an active Speedup
modification. -/
theorem encode_decode_roundtrip_witness :
    ([['A'], ['B']] ≠ ([] : List (List Char)) ∧
      gen_audio_prev_vec (joinWords [['A'], ['B']]) 100 110
        SpeedModificationType.Speedup 2 =
        some ([100, 910 / 9],
          ['|', '.', '*', '-', '/', '|', '-', '*', '.', '*', '.', '*', '.'])) ∧
    decode ['|', '.', '*', '-', '/', '|', '-', '*', '.', '*', '.', '*', '.'] =
      some [['A'], ['B']] := by
  have henc : gen_audio_prev_vec (joinWords [['A'], ['B']]) 100 110
      SpeedModificationType.Speedup 2 =
      some ([100, 910 / 9],
        ['|', '.', '*', '-', '/', '|', '-', '*', '.', '*', '.', '*', '.']) := by
    norm_num +decide [gen_audio_prev_vec, encGo, encStep, gapPart, morsePart,
      markPart, morse_get_A, morse_get_B, morse_get_space, wrapCn, speedOnChar,
      joinWords]
  exact ⟨⟨by simp, henc⟩,
    encode_decode_roundtrip [['A'], ['B']] 100 110
      SpeedModificationType.Speedup 2 (by simp) (by decide) _ _ henc⟩

/-! ## Claim C7: wave normalization -/

/-- The fold seed `f32::MIN` is negative. -/
lemma F32_MIN_neg : F32_MIN < 0 := by
  unfold F32_MIN
  norm_num

/-- The starting value never exceeds a maximum fold. -/
lemma foldl_max_init_le : ∀ (l : List ℝ) (a : ℝ), a ≤ l.foldl max a
  | [], a => le_refl a
  | y :: t, a => le_trans (le_max_left a y) (foldl_max_init_le t (max a y))

/-- Every element is bounded by the maximum fold. -/
lemma mem_le_foldl_max : ∀ (l : List ℝ) (a x : ℝ), x ∈ l → x ≤ l.foldl max a
  | [], _, _, h => absurd h (by simp)
  | y :: t, a, x, h => by
    rcases List.mem_cons.mp h with h | h
    · subst h
      exact le_trans (le_max_right a x) (foldl_max_init_le t (max a x))
    · exact mem_le_foldl_max t (max a y) x h

/-- The maximum fold is the starting value or one of the elements. -/
lemma foldl_max_eq_or_mem : ∀ (l : List ℝ) (a : ℝ),
    l.foldl max a = a ∨ l.foldl max a ∈ l
  | [], _ => Or.inl rfl
  | y :: t, a => by
    rcases foldl_max_eq_or_mem t (max a y) with h | h
    · rcases max_choice a y with he | he
      · exact Or.inl (h.trans he)
      · refine Or.inr ?_
        show t.foldl max (max a y) ∈ y :: t
        rw [h.trans he]
        simp
    · exact Or.inr (List.mem_cons_of_mem _ h)

/-- With at least two points, a linspace ends exactly at its endpoint. -/
lemma linspace_last {a b : ℝ} {n : ℕ} (h : 2 ≤ n) :
    (linspace a b n).getLast? = some b := by
  obtain ⟨m, rfl⟩ : ∃ m, n = m + 2 := ⟨n - 2, by omega⟩
  unfold linspace
  rw [if_neg (by omega), List.range_succ, List.map_append, List.map_cons,
    List.map_nil, List.getLast?_concat]
  have hx : ((m + 2 : ℕ) : ℝ) - 1 = (m : ℝ) + 1 := by
    push_cast
    ring
  have hne : (m : ℝ) + 1 ≠ 0 := by positivity
  rw [hx]
  congr 1
  push_cast
  field_simp

/-- For at least two fade samples, the final rising Hann factor is exactly 1:
the linspace endpoint is π and 0.5·(1 − cos π) = 1. -/
lemma hann_in_factors_last {n : ℕ} (h : 2 ≤ n) :
    (hann_in_factors n).getLast? = some 1 := by
  unfold hann_in_factors
  rw [List.getLast?_map, linspace_last h, Option.map_some', Real.cos_pi]
  norm_num

/-- The maximum fold over the Sine buffer of the counterexample is 0. -/
lemma sine_witness_fold : ([(0 : ℝ), -(1 / 2)].foldl max F32_MIN) = 0 := by
  show max (max F32_MIN 0) (-(1 / 2) : ℝ) = 0
  rw [max_eq_right (le_of_lt F32_MIN_neg), max_eq_left (by norm_num)]

/-- The program's Sine buffer at frequency 14000 and unit duration
1/24000 s × 1 has exactly two samples: 0 and −1/2. -/
lemma sine_witness_buffer :
    sine_wave_samples 14000 (1 / 24000) 1 = [0, -(1 / 2)] := by
  unfold sine_wave_samples
  have hn : (⌊(48000 : ℝ) * (1 / 24000) * ((1 : ℤ) : ℝ)⌋).toNat = 2 := by
    have hfl : ⌊(48000 : ℝ) * (1 / 24000) * ((1 : ℤ) : ℝ)⌋ = 2 := by
      norm_num
    rw [hfl]
    rfl
  rw [hn]
  unfold linspace
  rw [if_neg (by omega), show List.range 2 = [0, 1] from rfl]
  simp only [List.map_cons, List.map_nil]
  have ha : Real.sin (2 * Real.pi * ((14000 : ℤ) : ℝ) *
      (0 + (1 / 24000 * ((1 : ℤ) : ℝ) - 0) * ((0 : ℕ) : ℝ) /
        (((2 : ℕ) : ℝ) - 1))) = 0 := by
    push_cast
    norm_num
  have hb : Real.sin (2 * Real.pi * ((14000 : ℤ) : ℝ) *
      (0 + (1 / 24000 * ((1 : ℤ) : ℝ) - 0) * ((1 : ℕ) : ℝ) /
        (((2 : ℕ) : ℝ) - 1))) = -(1 / 2) := by
    have harg : 2 * Real.pi * ((14000 : ℤ) : ℝ) *
        (0 + (1 / 24000 * ((1 : ℤ) : ℝ) - 0) * ((1 : ℕ) : ℝ) /
          (((2 : ℕ) : ℝ) - 1)) = Real.pi / 6 + Real.pi := by
      push_cast
      ring
    rw [harg, Real.sin_add_pi, Real.sin_pi_div_six]
  rw [ha, hb]

/-- Claim C7 (counterexample): with wave type Sine, frequency 14000 and
positive duration 1/24000 s × 1 unit, the synthesized buffer is [0, −1/2];
its maximum sample is 0, so the code skips normalization and leaves the
buffer unchanged, although the maximum absolute sample value named by the
claim is 1/2 ≠ 0 — and the resulting pre-fade peak absolute amplitude is 1/2,
not 1. -/
theorem wave_normalization_counterexample :
    (0 : ℝ) < 1 / 24000 * ((1 : ℤ) : ℝ) ∧
    sine_wave_samples 14000 (1 / 24000) 1 = [0, -(1 / 2)] ∧
    normalize_wave [0, -(1 / 2)] = [0, -(1 / 2)] ∧
    ((([(0 : ℝ), -(1 / 2)]).map abs).foldl max 0 = 1 / 2 ∧ (1 / 2 : ℝ) ≠ 0) ∧
    (∀ s ∈ normalize_wave [0, -(1 / 2)], abs s ≤ 1 / 2) ∧ (1 / 2 : ℝ) ≠ 1 := by
  have hnorm : normalize_wave [0, -(1 / 2)] = [0, -(1 / 2)] := by
    unfold normalize_wave
    rw [sine_witness_fold]
    norm_num
  refine ⟨by norm_num, sine_witness_buffer, hnorm, ⟨?_, by norm_num⟩, ?_,
    by norm_num⟩
  · show max (max (0 : ℝ) (abs 0)) (abs (-(1 / 2) : ℝ)) = 1 / 2
    rw [abs_zero, abs_neg, max_self, abs_of_pos (by norm_num : (0 : ℝ) < 1 / 2),
      max_eq_right (by norm_num)]
  · intro s hs
    rw [hnorm] at hs
    rcases List.mem_cons.mp hs with h | h
    · subst h
      norm_num
    · rcases List.mem_cons.mp h with h | h
      · subst h
        rw [abs_neg, abs_of_pos (by norm_num : (0 : ℝ) < 1 / 2)]
      · exact absurd h (by simp)

/-- Claim C7 (amended): the synthesis normalizes by dividing every sample by
the absolute value of the buffer's maximum sample — the fold of f32::max
seeded with f32::MIN — and only when that absolute value is positive.  When
the buffer's maximum sample is positive this brings the maximum of the
normalized buffer to exactly 1: every normalized sample is ≤ 1 and some
normalized sample equals 1.  A buffer whose maximum is non-positive is not
brought to peak 1 (see the counterexample).  The rising fade is a raised
cosine whose final factor is exactly 1 (the linspace endpoint θ = π), so
fade-window samples are bounded by, not strictly smaller than, their
unwindowed values. -/
theorem wave_normalization_spec (wave : List ℝ)
    (hpos : 0 < wave.foldl max F32_MIN) :
    normalize_wave wave =
      wave.map (fun s => s / wave.foldl max F32_MIN) ∧
    (∀ s ∈ normalize_wave wave, s ≤ 1) ∧
    (∃ s ∈ normalize_wave wave, s = 1) ∧
    (∀ n : ℕ, 2 ≤ n → (hann_in_factors n).getLast? = some 1) := by
  have habs : abs (wave.foldl max F32_MIN) = wave.foldl max F32_MIN :=
    abs_of_pos hpos
  have heq : normalize_wave wave =
      wave.map (fun s => s / wave.foldl max F32_MIN) := by
    unfold normalize_wave
    rw [habs, if_pos hpos]
  refine ⟨heq, ?_, ?_, fun n hn => hann_in_factors_last hn⟩
  · intro s hs
    rw [heq] at hs
    obtain ⟨x, hx, rfl⟩ := List.mem_map.mp hs
    exact div_le_one_of_le₀ (mem_le_foldl_max wave F32_MIN x hx) (le_of_lt hpos)
  · have hmem : wave.foldl max F32_MIN ∈ wave := by
      rcases foldl_max_eq_or_mem wave F32_MIN with h | h
      · rw [h] at hpos
        exact absurd hpos (not_lt.mpr (le_of_lt F32_MIN_neg))
      · exact h
    refine ⟨wave.foldl max F32_MIN / wave.foldl max F32_MIN, ?_, ?_⟩
    · rw [heq]
      exact List.mem_map_of_mem _ hmem
    · exact div_self (ne_of_gt hpos)

/-- The maximum fold over the witness buffer of the amended claim is 1. -/
lemma spec_witness_fold : ([(1 : ℝ), -(1 / 2)].foldl max F32_MIN) = 1 := by
  show max (max F32_MIN 1) (-(1 / 2) : ℝ) = 1
  rw [max_eq_right (le_of_lt (lt_trans F32_MIN_neg (by norm_num))),
    max_eq_left (by norm_num)]

/-- Witness for the amended claim C7 on the buffer [1, −1/2], whose maximum
sample 1 is positive. -/
theorem wave_normalization_spec_witness :
    (0 : ℝ) < [(1 : ℝ), -(1 / 2)].foldl max F32_MIN ∧
    (normalize_wave [(1 : ℝ), -(1 / 2)] =
        [(1 : ℝ), -(1 / 2)].map
          (fun s => s / [(1 : ℝ), -(1 / 2)].foldl max F32_MIN) ∧
      (∀ s ∈ normalize_wave [(1 : ℝ), -(1 / 2)], s ≤ 1) ∧
      (∃ s ∈ normalize_wave [(1 : ℝ), -(1 / 2)], s = 1) ∧
      (∀ n : ℕ, 2 ≤ n → (hann_in_factors n).getLast? = some 1)) :=
  ⟨by rw [spec_witness_fold]; norm_num,
    wave_normalization_spec _ (by rw [spec_witness_fold]; norm_num)⟩
